import Mathlib

/-!
Shallow embedding of the malleable-task scheduler
(`src/algo.rs`, `src/dp.rs`, `src/lp.rs`, `src/ilp.rs`) and proofs about it.

Conventions of the embedding:
* Rust `i32` values are modelled as `Int` (no claim under scrutiny depends on
  32-bit overflow; all quantities are small integers in the source's domain).
* Rust `usize` is modelled as `Nat`.
* `f64` solver outputs are modelled as `ℚ`; the constant `rho = 0.430991`
  becomes the rational `430991/1000000`.
* Fallible code (panics such as `expect("no job ready")`,
  `expect("bad start time")`, out-of-bounds indexing, and the
  `panic!("chain contains two non-comparable jobs")` branch of the chain
  sort) is modelled with `Option`: `none` is the panic.
* Vector indexing that is proved in-bounds is modelled with `List.getD`.
-/

/-- A job in a problem instance (`algo.rs`, `struct Job`). -/
structure Job where
  id : Int
  index : Nat
  processing_times : List Int
deriving DecidableEq, Repr

/-- The processing time of the job for the given allotment
(`algo.rs`, `Job::processing_time`): element 0 of the vector is the
time on one machine, so the index is `allotment - 1`. -/
def Job.processing_time (j : Job) (allotment : Nat) : Int :=
  j.processing_times.getD (allotment - 1) 0

/-- Rust's `#[derive(Default)]` for `Job`: zero id, zero index, empty vector. -/
instance : Inhabited Job := ⟨⟨0, 0, []⟩⟩

/-- A constraint `(u, v)`: job `u` must complete no later than the start of
job `v` (`algo.rs`, `struct Constraint`). -/
def Constraint : Type := Nat × Nat
deriving DecidableEq, Repr

/-- The `PartialRelation::compare` implementation for jobs (`algo.rs`):
the first constraint in the list mentioning both indices decides, `some true`
when `self` is less than `other`, `some false` when greater. -/
def compareIdx (relation : List Constraint) (self other : Nat) : Option Bool :=
  relation.findSome? fun c =>
    if self = c.1 ∧ other = c.2 then some true
    else if other = c.1 ∧ self = c.2 then some false
    else none

/-- PartialRelation `less_than` (`algo.rs`). -/
def less_than (relation : List Constraint) (self other : Nat) : Bool :=
  compareIdx relation self other == some true

/-- PartialRelation `greater_than` (`algo.rs`). -/
def greater_than (relation : List Constraint) (self other : Nat) : Bool :=
  compareIdx relation self other == some false

/-- PartialRelation `is_comparable` (`algo.rs`). -/
def is_comparable (relation : List Constraint) (self other : Nat) : Bool :=
  (compareIdx relation self other).isSome

/-- A problem instance (`algo.rs`, `struct Instance`). -/
structure ProblemInstance where
  processor_count : Nat
  jobs : List Job
  constraints : List Constraint
  max_time : Int
deriving DecidableEq, Repr

/-- A scheduled job (`algo.rs`, `struct ScheduledJob`). -/
structure ScheduledJob where
  job : Job
  allotment : Nat
  start_time : Int
deriving DecidableEq, Repr

/-- `ScheduledJob::processing_time` (`algo.rs`). -/
def ScheduledJob.processing_time (s : ScheduledJob) : Int :=
  s.job.processing_time s.allotment

/-- Modelled from the spec: `ScheduledJob::completion_time` is called by
`lp.rs` and `ilp.rs` but its definition is not among the given source files;
the spec fixes it as "start_time + p[allotment]". -/
def ScheduledJob.completion_time (s : ScheduledJob) : Int :=
  s.start_time + s.processing_time

/-- `Instance::predecessors` (`ilp.rs`): all `(position, job)` pairs whose job
is directly less than the argument. -/
def predecessors (I : ProblemInstance) (job : Job) : List (Nat × Job) :=
  I.jobs.enum.filter fun p =>
    job.index ≠ p.2.index ∧ less_than I.constraints p.2.index job.index

/-- `Instance::successors` (`ilp.rs`): all `(position, job)` pairs whose job
is directly greater than the argument. -/
def successors (I : ProblemInstance) (job : Job) : List (Nat × Job) :=
  I.jobs.enum.filter fun p =>
    job.index ≠ p.2.index ∧ greater_than I.constraints p.2.index job.index

/-- A symbolic precedence inequality `C[cLeft] + x[xMid] ≤ C[cRight]` as
emitted into the LP/ILP model. -/
structure PrecIneq where
  cLeft : Nat
  xMid : Nat
  cRight : Nat
deriving DecidableEq, Repr

/-- The precedence constraints the LP formulation emits (`lp.rs` lines 46-59):
for each job `j` and each successor `k` of `j`,
`completion_times[j] + processing_times[k] ≤ completion_times[k]`. -/
def lpPrecedenceIneqs (I : ProblemInstance) : List PrecIneq :=
  I.jobs.enum.flatMap fun p =>
    (successors I p.2).map fun q => ⟨p.1, q.1, q.1⟩

/-- The precedence constraints the ILP formulation emits (`ilp.rs` lines
79-92): for each job `i` and each predecessor `j` of `i`,
`completion_times[i] + processing_times[j] ≤ completion_times[j]`. -/
def ilpPrecedenceIneqs (I : ProblemInstance) : List PrecIneq :=
  I.jobs.enum.flatMap fun p =>
    (predecessors I p.2).map fun q => ⟨p.1, q.1, q.1⟩

/-- A two-job instance with the single constraint `(0, 1)`. -/
def twoJobInstance : ProblemInstance :=
  { processor_count := 1
    jobs := [⟨10, 0, [2]⟩, ⟨11, 1, [3]⟩]
    constraints := [((0 : Nat), (1 : Nat))]
    max_time := 10 }

/-- A state of the dynamic program (`dp.rs`, `struct State`; derives
`PartialEq`/`Eq` on all three fields). -/
structure DpState where
  ideal : List Nat
  allotment : List Nat
  completion_times : List Int
deriving DecidableEq, Repr

/-- The hand-written `Hash` implementation of `State` (`dp.rs` lines 43-47)
feeds only `ideal` into the hasher, so the hash key of a state is its
`ideal` vector. -/
def DpState.hashKey (s : DpState) : List Nat := s.ideal

/-- `HashSet::insert` as used for the memoization set (`dp.rs` line 148):
the state is stored unless an equal (full-tuple equality) state is already
present; the Bool is `is_new`. -/
def insertState (known : List DpState) (s : DpState) : Bool × List DpState :=
  if s ∈ known then (false, known) else (true, s :: known)

/-- Write `done` into positions `machine ≤ i < machine + allotment` of the
occupation vector (`lp.rs`/`ilp.rs`: `for i in machine..machine + allotment
{ occupation[i] = done; }`). -/
def writeBlock (occ : List Int) (machine allotment : Nat) (done : Int) : List Int :=
  (List.range occ.length).map fun i =>
    if machine ≤ i ∧ i < machine + allotment then done else occ.getD i 0

/-- Rust's `iter().enumerate().find(...)`: the index of the first element
satisfying the predicate. -/
def findFirstIdx (p : α → Bool) : List α → Option Nat
  | [] => none
  | a :: l => if p a then some 0 else (findFirstIdx p l).map (· + 1)

/-- The occupation update of the list scheduler (`lp.rs` lines 197-207,
`ilp.rs` lines 189-199): find the first position whose free time is
`≤ start_time` (`expect("bad start time")` panics — `none` — if there is
none), then overwrite the `allotment` positions starting there with `done`
(out-of-bounds write is also `none`). -/
def updateOccupation (occ : List Int) (start_time : Int) (allotment : Nat)
    (done : Int) : Option (List Int) :=
  match findFirstIdx (fun o => o ≤ start_time) occ with
  | none => none
  | some machine =>
    if machine + allotment ≤ occ.length then
      some (writeBlock occ machine allotment done)
    else none

/-- The occupation update as the claim words it (refinement reference, built
from the claim, not from the source): find the first index `s` such that all
of the `allotment` consecutive positions `s, …, s+allotment-1` currently have
free time `≤ start_time`, and set exactly those positions to `done`. -/
def updateOccupationClaim (occ : List Int) (start_time : Int) (allotment : Nat)
    (done : Int) : Option (List Int) :=
  match (List.range (occ.length + 1 - allotment)).find?
      (fun s => decide (∀ k < allotment, occ.getD (s + k) 0 ≤ start_time)) with
  | none => none
  | some machine => some (writeBlock occ machine allotment done)

/-- Rust `Iterator::min_by_key` on `(job, key)` pairs: the minimum by the
second component, the first element winning ties. -/
def minBySndFirst : List (Nat × Int) → Option (Nat × Int)
  | [] => none
  | x :: xs => some (xs.foldl (fun best y => if y.2 < best.2 then y else best) x)

/-- The ready test of the list scheduler (`lp.rs` lines 159-166): a job is
kept iff every direct predecessor can be found among the already scheduled
jobs. -/
def isReady (I : ProblemInstance) (scheduled : List ScheduledJob) (job : Nat) : Bool :=
  (predecessors I (I.jobs.getD job default)).all fun p =>
    scheduled.any fun s => s.job.index == p.2.index

/-- The latest completion time of the already scheduled direct predecessors
(`lp.rs` lines 175-179), `0` when there are none. -/
def predsFinishedAt (I : ProblemInstance) (scheduled : List ScheduledJob)
    (job : Nat) : Int :=
  (((predecessors I (I.jobs.getD job default)).filterMap fun p =>
      scheduled.find? fun s => s.job.index == p.2.index).map
    ScheduledJob.completion_time).max?.getD 0

/-- The earliest feasible start the list scheduler computes for a ready job
(`lp.rs` lines 167-186): the maximum of the suggested start
(`0` when `compress`, else target completion minus processing time), the
predecessors' latest completion, and `occupation[occupation.len() - allotment]`. -/
def earliestStart (I : ProblemInstance) (allotments : List Nat)
    (completion_times : List Int) (compress : Bool) (occupation : List Int)
    (scheduled : List ScheduledJob) (job : Nat) : Int :=
  let allotment := allotments.getD job 0
  let starting_time :=
    if compress then 0
    else completion_times.getD job 0 - (I.jobs.getD job default).processing_time allotment
  let fit := occupation.getD (occupation.length - allotment) 0
  max (max starting_time (predsFinishedAt I scheduled job)) fit

/-- One pick of the list scheduler (`lp.rs` lines 156-189): among the still
available jobs whose predecessors are all scheduled, the one with the minimal
earliest feasible start (first wins ties), together with that start;
`none` models the `expect("no job ready")` panic. -/
def pickJob (I : ProblemInstance) (allotments : List Nat)
    (completion_times : List Int) (compress : Bool) (occupation : List Int)
    (scheduled : List ScheduledJob) (avail : List (Nat × Bool)) :
    Option (Nat × Int) :=
  minBySndFirst
    (((avail.filter (·.2)).filterMap fun jb =>
        if isReady I scheduled jb.1 then some jb.1 else none).map
      fun job => (job, earliestStart I allotments completion_times compress occupation scheduled job))

/-- The main loop of the list scheduler (`lp.rs` lines 154-209, `ilp.rs`
lines 149-201), one recursion step per `for` iteration: pick a job, mark it
unavailable, record it with the picked start time, and update the occupation
vector. -/
def listLoop (I : ProblemInstance) (allotments : List Nat)
    (completion_times : List Int) (compress : Bool) :
    Nat → List (Nat × Bool) → List ScheduledJob → List Int →
    Option (List ScheduledJob)
  | 0, _, scheduled, _ => some scheduled
  | fuel + 1, avail, scheduled, occupation =>
    match pickJob I allotments completion_times compress occupation scheduled avail with
    | none => none
    | some (pick, start_time) =>
      let allotment := allotments.getD pick 0
      let sj : ScheduledJob := ⟨I.jobs.getD pick default, allotment, start_time⟩
      match updateOccupation occupation start_time allotment sj.completion_time with
      | none => none
      | some occ2 =>
        listLoop I allotments completion_times compress fuel
          (avail.set pick (pick, false)) (scheduled ++ [sj]) occ2

/-- Phase 2 of `lp.rs`/`ilp.rs`: run the list scheduler on the given
allotment vector and target completion times, starting from all jobs
available and an all-zero occupation vector of length `processor_count`. -/
def listSchedule (I : ProblemInstance) (allotments : List Nat)
    (completion_times : List Int) (compress : Bool) : Option (List ScheduledJob) :=
  listLoop I allotments completion_times compress I.jobs.length
    ((List.range I.jobs.length).map fun i => (i, true)) []
    (List.replicate I.processor_count 0)

/-- The product `rho * p` with `rho = 0.430991` (`lp.rs`, `compute_rho`),
expressed as a single normalized rational so that it kernel-evaluates. -/
def rhoTimes (p : Int) : ℚ := mkRat (430991 * p) 1000000

/-- Rust `Iterator::max_by_key` on `(level, key)` pairs: the maximum by the
second component, the last element winning ties. -/
def maxBySndLast : List (Nat × Int) → Option (Nat × Int)
  | [] => none
  | x :: xs => some (xs.foldl (fun best y => if best.2 ≤ y.2 then y else best) x)

/-- The LP rounding of one job (`lp.rs` lines 121-141): each allotment level
`i ∈ [1, m]` is keyed with `0` when the solved virtual processing time
`y[i]` is below `rho * p[i]` and with `p[i]` otherwise; the level of the
maximal key (last wins ties) is chosen, `0` when there are no levels at all
(`unwrap_or(0)`). -/
def roundAllotment (m : Nat) (pts : List Int) (ys : List ℚ) : Nat :=
  ((maxBySndLast ((List.range m).map fun i =>
      let p := pts.getD i 0
      if ys.getD i 0 < rhoTimes p then (i + 1, 0) else (i + 1, p))).map
    Prod.fst).getD 0

/-- The allotment vector the LP solver hands to the list scheduler
(`lp.rs` lines 121-141), one rounded allotment per job, from the solved
virtual processing times `ys`. -/
def lpAllotments (I : ProblemInstance) (ys : List (List ℚ)) : List Nat :=
  (List.range I.jobs.length).map fun j =>
    roundAllotment I.processor_count (I.jobs.getD j default).processing_times (ys.getD j [])

/-- The LP solver's phase 2 on a solved LP: round the virtual processing
times to allotments, then list-schedule (`lp.rs`, `schedule`, from line 121). -/
def lpSchedule (I : ProblemInstance) (ys : List (List ℚ))
    (completion_times : List Int) (compress : Bool) : Option (List ScheduledJob) :=
  listSchedule I (lpAllotments I ys) completion_times compress

/-- Total allotment of the jobs running at instant `t`: the sum of
`allotment[j]` over scheduled jobs with `start(j) ≤ t < completion(j)`. -/
def usageAt (sched : List ScheduledJob) (t : Int) : Nat :=
  ((sched.filter fun s => decide (s.start_time ≤ t ∧ t < s.completion_time)).map
    (·.allotment)).sum

/-- The constant `rho` (`lp.rs`, `compute_rho`): `0.430991`. -/
def compute_rho : ℚ := mkRat 430991 1000000

/-- Condition 2 of the DP transition check (`dp.rs` lines 87-101): iterate
over the nonzero entries of `ideal` — note the `filter` BEFORE `enumerate`,
so `chain_index` counts filtered entries — and reject when the front job read
at that (possibly shifted) index directly precedes the new job and the new
start time is before the completion time read at that same shifted index. -/
def cond2Reject (I : ProblemInstance) (chains : List (List Nat)) (st : DpState)
    (new_job_index : Nat) (new_start_time : Int) : Bool :=
  ((st.ideal.filter (· ≠ 0)).enum).any fun p =>
    let chain_index := p.1
    let ideal := p.2
    let completion_time := st.completion_times.getD chain_index 0
    let front_job_index := (chains.getD chain_index []).getD (ideal - 1) 0
    let front_job := I.jobs.getD front_job_index default
    less_than I.constraints front_job.index
        ((I.jobs.getD new_job_index default).index) &&
      decide (new_start_time < completion_time)

/-- Condition 2 as the claim words it (refinement reference, built from the
claim, not from the source): some chain `c'` other than the candidate's own
chain `c` has a committed front (`ideal ≠ 0`) whose front job directly
precedes the new job, and the new start time is before the completion time
stored for that same chain `c'`. -/
def cond2RejectClaim (I : ProblemInstance) (chains : List (List Nat)) (st : DpState)
    (c : Nat) (new_job_index : Nat) (new_start_time : Int) : Bool :=
  (List.range chains.length).any fun c' =>
    c' ≠ c &&
    st.ideal.getD c' 0 ≠ 0 &&
    less_than I.constraints
      ((I.jobs.getD ((chains.getD c' []).getD (st.ideal.getD c' 0 - 1) 0) default).index)
      ((I.jobs.getD new_job_index default).index) &&
    decide (new_start_time < st.completion_times.getD c' 0)

/-- Insertion into a list sorted ascending by the first component, ties by
the second component; used to realize the stable sort below. -/
def insertByKey (x : (Int × Int) × Nat) :
    List ((Int × Int) × Nat) → List ((Int × Int) × Nat)
  | [] => [x]
  | y :: ys =>
    if x.1.1 < y.1.1 ∨ (x.1.1 = y.1.1 ∧ x.2 ≤ y.2) then x :: y :: ys
    else y :: insertByKey x ys

/-- Rust's stable `sort_by_key(|p| p.0)` on `(time, diff)` pairs: sort by
time, ties kept in the original order (realized by tagging each pair with
its position and sorting lexicographically by (time, position)). -/
def stableSortByFst (l : List (Int × Int)) : List (Int × Int) :=
  ((l.enum.map fun p => (p.2, p.1)).foldr insertByKey []).map Prod.fst

/-- The utilisation sweep (`dp.rs` lines 134-142): accumulate the diffs and
fail as soon as the running total exceeds the processor count. -/
def sweepOk (limit : Int) : Int → List (Int × Int) → Bool
  | _, [] => true
  | utilisation, p :: rest =>
    if utilisation + p.2 > limit then false else sweepOk limit (utilisation + p.2) rest

/-- The event list of the DP capacity check (`dp.rs` lines 114-132): for each
nonzero entry of `ideal` — again `filter` before `enumerate` — read the front
job and completion time at the (possibly shifted) index, compute the front's
start time from its committed allotment, and emit events
`(start, +a)` and `(completion, -a)` where `a` is the CANDIDATE's allotment
(the loop variable `allotment` shadows the front's allotment here). -/
def capacityPairs (I : ProblemInstance) (chains : List (List Nat)) (st : DpState)
    (new_job_index : Nat) (allotment : Nat) : List (Int × Int) :=
  ((st.ideal.filter (· ≠ 0)).enum).flatMap fun p =>
    let chain_index := p.1
    let ideal := p.2
    let front_job_index := (chains.getD chain_index []).getD (ideal - 1) 0
    let front_job :=
      if new_job_index = front_job_index then I.jobs.getD new_job_index default
      else I.jobs.getD front_job_index default
    let completion_time := st.completion_times.getD chain_index 0
    let start_time :=
      completion_time - front_job.processing_time (st.allotment.getD chain_index 0)
    [(start_time, (allotment : Int)), (completion_time, -(allotment : Int))]

/-- The DP capacity check as the code performs it (`dp.rs` lines 113-145):
build the event pairs, sort them stably by time, and sweep against the
processor count. -/
def capacityCheckCode (I : ProblemInstance) (chains : List (List Nat)) (st : DpState)
    (new_job_index : Nat) (allotment : Nat) : Bool :=
  sweepOk (I.processor_count : Int) 0
    (stableSortByFst (capacityPairs I chains st new_job_index allotment))

/-- The DP capacity check as the claim words it (refinement reference, built
from the claim, not from the source): events `(start, +a)` and
`(completion, -a)` for every chain's committed front using that front's OWN
committed allotment, plus the events of the candidate job itself (placed at
start `tau - p`, completion `tau`, with the candidate's allotment); sort by
time and sweep against the processor count. -/
def capacityCheckClaim (I : ProblemInstance) (chains : List (List Nat)) (st : DpState)
    (new_job_index : Nat) (allotment : Nat) (tau : Int) : Bool :=
  let frontEvents :=
    (List.range chains.length).flatMap fun c =>
      let ideal := st.ideal.getD c 0
      if ideal = 0 then []
      else
        let front_job_index := (chains.getD c []).getD (ideal - 1) 0
        let front_job := I.jobs.getD front_job_index default
        let a := (st.allotment.getD c 0 : Int)
        let completion_time := st.completion_times.getD c 0
        let start_time :=
          completion_time - front_job.processing_time (st.allotment.getD c 0)
        [(start_time, a), (completion_time, -a)]
  let p := (I.jobs.getD new_job_index default).processing_time allotment
  let candidateEvents := [(tau - p, (allotment : Int)), (tau, -(allotment : Int))]
  sweepOk (I.processor_count : Int) 0 (stableSortByFst (frontEvents ++ candidateEvents))

/-- The greedy first-fit step of the chain decomposition (`dp.rs` lines
175-183): append the job to the first chain all of whose members are
comparable to it, or start a new chain. -/
def insertChainJob (I : ProblemInstance) (job : Job) (job_index : Nat) :
    List (List Nat) → List (List Nat)
  | [] => [[job_index]]
  | chain :: rest =>
    if chain.all fun i =>
        is_comparable I.constraints (I.jobs.getD i default).index job.index then
      (chain ++ [job_index]) :: rest
    else chain :: insertChainJob I job job_index rest

/-- The greedy phase of `preprocess` (`dp.rs` lines 173-184): fold the jobs
in index order through the first-fit insertion. -/
def buildChains (I : ProblemInstance) : List (List Nat) :=
  I.jobs.enum.foldl (fun chains p => insertChainJob I p.2 p.1 chains) []

/-- The comparator of the per-chain sort (`dp.rs` lines 186-192):
`jobs[left].compare(&constraints, &jobs[right])` on two chain positions. -/
def jobCompare (I : ProblemInstance) (left right : Nat) : Option Bool :=
  compareIdx I.constraints (I.jobs.getD left default).index
    (I.jobs.getD right default).index

/-- Ordered insertion for the per-chain sort (`dp.rs` lines 185-193): the
comparator maps `compare = Some(true)` to Less and `Some(false)` to Greater
and panics (`none`) on incomparable pairs. Rust's `sort_by` is a stable
comparison sort; on chains all of whose members are pairwise comparable the
comparator is a strict total order, whose sorted permutation is unique, so
insertion sort computes the same list. -/
def orderedInsertChain (I : ProblemInstance) (x : Nat) :
    List Nat → Option (List Nat)
  | [] => some [x]
  | y :: ys =>
    match jobCompare I x y with
    | some true => some (x :: y :: ys)
    | some false => (orderedInsertChain I x ys).map (y :: ·)
    | none => none

/-- Insertion sort of one chain with the panicking comparator. -/
def sortChain (I : ProblemInstance) : List Nat → Option (List Nat)
  | [] => some []
  | x :: xs => (sortChain I xs).bind (orderedInsertChain I x)

/-- `preprocess` of the DP solver (`dp.rs` lines 172-195): greedy first-fit
decomposition into chains, then each chain sorted by the panicking
comparator. -/
def preprocess (I : ProblemInstance) : Option (List (List Nat)) :=
  (buildChains I).mapM (sortChain I)

/-- Three independent jobs on two processors; processing-time vectors
`[2,1]`, `[10,6]`, `[2,1]`. -/
def threeJobInstance : ProblemInstance :=
  { processor_count := 2
    jobs := [⟨0, 0, [2, 1]⟩, ⟨1, 1, [10, 6]⟩, ⟨2, 2, [2, 1]⟩]
    constraints := []
    max_time := 100 }

/-- One chain of two jobs `0 ≺ 1` on two processors, both with processing
times `[4, 2]`. -/
def chainedPairInstance : ProblemInstance :=
  { processor_count := 2
    jobs := [⟨0, 0, [4, 2]⟩, ⟨1, 1, [4, 2]⟩]
    constraints := [((0 : Nat), (1 : Nat))]
    max_time := 20 }

/-- One chain of two jobs `0 ≺ 1` on one processor, processing times `[5]`
and `[3]`. -/
def chainedUnitInstance : ProblemInstance :=
  { processor_count := 1
    jobs := [⟨0, 0, [5]⟩, ⟨1, 1, [3]⟩]
    constraints := [((0 : Nat), (1 : Nat))]
    max_time := 20 }

/-- C1, divergence witnessed on the code: for the instance with jobs 0, 1 and
the single precedence constraint `(0, 1)`, the LP emits the claimed
inequality `C[0] + x[1] ≤ C[1]`, but the ILP emits the reversed inequality
`C[1] + x[0] ≤ C[0]`, and the claimed inequality is absent from the ILP
model. -/
theorem C1_ilp_reverses_precedence :
    lpPrecedenceIneqs twoJobInstance = [⟨0, 1, 1⟩] ∧
    ilpPrecedenceIneqs twoJobInstance = [⟨1, 0, 0⟩] ∧
    ⟨0, 1, 1⟩ ∉ ilpPrecedenceIneqs twoJobInstance := by
  refine ⟨by decide, by decide, by decide⟩

/-- C7: two DP states with equal `ideal` vectors but different front
allotment or completion vectors are unequal as states, so inserting the
second after the first stores both in the memoization set, while their hash
keys coincide because hashing uses `ideal` only. -/
theorem C7_hash_ideal_only (s₁ s₂ : DpState)
    (hid : s₁.ideal = s₂.ideal)
    (hne : s₁.allotment ≠ s₂.allotment ∨ s₁.completion_times ≠ s₂.completion_times) :
    s₁ ≠ s₂ ∧ s₁.hashKey = s₂.hashKey ∧
    (insertState (insertState [] s₁).2 s₂).1 = true ∧
    s₁ ∈ (insertState (insertState [] s₁).2 s₂).2 ∧
    s₂ ∈ (insertState (insertState [] s₁).2 s₂).2 := by
  have hne' : s₁ ≠ s₂ := by
    intro h
    cases hne with
    | inl h1 => exact h1 (by rw [h])
    | inr h2 => exact h2 (by rw [h])
  refine ⟨hne', by rw [DpState.hashKey, DpState.hashKey, hid], ?_, ?_, ?_⟩
  · simp [insertState, hne'.symm]
  · simp [insertState, hne'.symm]
  · simp [insertState, hne'.symm]

/-- Witness for C7 at two concrete states sharing `ideal = [1]`. -/
theorem C7_hash_ideal_only_witness :
    (⟨[1], [1], [3]⟩ : DpState) ≠ ⟨[1], [2], [5]⟩ ∧
    DpState.hashKey ⟨[1], [1], [3]⟩ = DpState.hashKey ⟨[1], [2], [5]⟩ ∧
    (insertState (insertState [] ⟨[1], [1], [3]⟩).2 ⟨[1], [2], [5]⟩).1 = true ∧
    (⟨[1], [1], [3]⟩ : DpState) ∈ (insertState (insertState [] ⟨[1], [1], [3]⟩).2 ⟨[1], [2], [5]⟩).2 ∧
    (⟨[1], [2], [5]⟩ : DpState) ∈ (insertState (insertState [] ⟨[1], [1], [3]⟩).2 ⟨[1], [2], [5]⟩).2 :=
  C7_hash_ideal_only ⟨[1], [1], [3]⟩ ⟨[1], [2], [5]⟩ rfl (Or.inl (by decide))

/-- Reading a mapped range at an in-range index. -/
theorem getD_map_range {α : Type} (f : Nat → α) {n i : Nat} (d : α) (h : i < n) :
    ((List.range n).map f).getD i d = f i := by
  simp [List.getD_eq_getElem?_getD, List.getElem?_map, List.getElem?_range, h]

/-- The block write preserves the length of the occupation vector. -/
theorem writeBlock_length (occ : List Int) (machine allotment : Nat) (done : Int) :
    (writeBlock occ machine allotment done).length = occ.length := by
  simp [writeBlock]

/-- Reading the block write: positions inside the block hold `done`, the
others are unchanged. -/
theorem writeBlock_getD (occ : List Int) (machine allotment : Nat) (done : Int)
    {i : Nat} (h : i < occ.length) :
    (writeBlock occ machine allotment done).getD i 0 =
      if machine ≤ i ∧ i < machine + allotment then done else occ.getD i 0 := by
  rw [writeBlock, getD_map_range _ 0 h]

/-- Soundness of `findFirstIdx`: a returned index is in range, satisfies the
predicate, and all indices before it do not. -/
theorem findFirstIdx_eq_some {α : Type} {p : α → Bool} (d : α) {l : List α} :
    ∀ {i : Nat}, findFirstIdx p l = some i →
      i < l.length ∧ p (l.getD i d) = true ∧ ∀ k, k < i → p (l.getD k d) = false := by
  induction l with
  | nil => intro i h; simp [findFirstIdx] at h
  | cons a l ih =>
    intro i h
    cases hpa : p a with
    | true =>
      simp only [findFirstIdx, hpa, if_true, Option.some.injEq] at h
      subst h
      exact ⟨Nat.succ_pos _, by simpa using hpa, fun k hk => absurd hk (Nat.not_lt_zero k)⟩
    | false =>
      simp only [findFirstIdx, hpa, Bool.false_eq_true, if_false, Option.map_eq_some'] at h
      obtain ⟨j, hj, rfl⟩ := h
      obtain ⟨hlen, hp, hbefore⟩ := ih hj
      refine ⟨Nat.succ_lt_succ hlen, by simpa using hp, ?_⟩
      intro k hk
      cases k with
      | zero => simpa using hpa
      | succ k => simpa using hbefore k (Nat.lt_of_succ_lt_succ hk)

/-- Completeness of `findFirstIdx`: when some in-range index satisfies the
predicate, a first index is found, no later than that one. -/
theorem findFirstIdx_le {α : Type} {p : α → Bool} (d : α) {l : List α} :
    ∀ {k : Nat}, k < l.length → p (l.getD k d) = true →
      ∃ i, findFirstIdx p l = some i ∧ i ≤ k := by
  induction l with
  | nil => intro k hk; simp at hk
  | cons a l ih =>
    intro k hk hp
    cases hpa : p a with
    | true => exact ⟨0, by simp [findFirstIdx, hpa], Nat.zero_le k⟩
    | false =>
      cases k with
      | zero => simp only [List.getD_cons_zero] at hp; rw [hpa] at hp; exact absurd hp (by simp)
      | succ k =>
        obtain ⟨i, hi, hik⟩ := ih (Nat.lt_of_succ_lt_succ hk) (by simpa using hp)
        exact ⟨i + 1, by simp [findFirstIdx, hpa, hi], Nat.succ_le_succ hik⟩

/-- C2, counterexample: on the occupation vector `[0, 5, 0, 0]` with
start time `0` and allotment `2`, the code writes the completion time `7`
into positions 0 and 1 — position 1 has free time `5 > 0` — whereas the
claimed rule (first run of 2 consecutive positions all free by time 0)
selects positions 2 and 3. -/
theorem C2_counterexample :
    updateOccupation [0, 5, 0, 0] 0 2 7 = some [7, 7, 0, 0] ∧
    updateOccupationClaim [0, 5, 0, 0] 0 2 7 = some [0, 5, 7, 7] ∧
    updateOccupation [0, 5, 0, 0] 0 2 7 ≠ updateOccupationClaim [0, 5, 0, 0] 0 2 7 := by
  refine ⟨by decide, by decide, by decide⟩

/-- C2 (amended): the occupation update locates the first SINGLE position
whose current free time is `≤ start_time` and sets the free time of the
`allotment` consecutive positions starting there to the job's completion,
regardless of the free times of the later positions in that block. -/
theorem C2_update_overwrites_from_first_free_position
    (occ : List Int) (start_time : Int) (allotment : Nat) (done : Int)
    (machine : Nat)
    (hfind : findFirstIdx (fun o => o ≤ start_time) occ = some machine)
    (hroom : machine + allotment ≤ occ.length) :
    ∃ res, updateOccupation occ start_time allotment done = some res ∧
      res.length = occ.length ∧
      occ.getD machine 0 ≤ start_time ∧
      (∀ k, k < machine → ¬ (occ.getD k 0 ≤ start_time)) ∧
      (∀ i, machine ≤ i → i < machine + allotment → res.getD i 0 = done) ∧
      (∀ i, i < occ.length → ¬ (machine ≤ i ∧ i < machine + allotment) →
        res.getD i 0 = occ.getD i 0) := by
  obtain ⟨hlen, hsat, hbefore⟩ := findFirstIdx_eq_some 0 hfind
  refine ⟨writeBlock occ machine allotment done, ?_, writeBlock_length _ _ _ _,
      by simpa using hsat, ?_, ?_, ?_⟩
  · rw [updateOccupation, hfind]
    simp [hroom]
  · intro k hk
    have := hbefore k hk
    simpa using this
  · intro i h1 h2
    have hi : i < occ.length := lt_of_lt_of_le h2 hroom
    rw [writeBlock_getD occ machine allotment done hi, if_pos ⟨h1, h2⟩]
  · intro i hi hout
    rw [writeBlock_getD occ machine allotment done hi, if_neg hout]

/-- Witness for the amended C2 at the counterexample input. -/
theorem C2_update_overwrites_witness :
    findFirstIdx (fun o => o ≤ (0 : Int)) [0, 5, 0, 0] = some 0 ∧
    0 + 2 ≤ ([0, 5, 0, 0] : List Int).length ∧
    ∃ res, updateOccupation [0, 5, 0, 0] 0 2 7 = some res ∧
      res.length = ([0, 5, 0, 0] : List Int).length ∧
      ([0, 5, 0, 0] : List Int).getD 0 0 ≤ 0 ∧
      (∀ k, k < 0 → ¬ (([0, 5, 0, 0] : List Int).getD k 0 ≤ 0)) ∧
      (∀ i, 0 ≤ i → i < 0 + 2 → res.getD i 0 = 7) ∧
      (∀ i, i < ([0, 5, 0, 0] : List Int).length → ¬ (0 ≤ i ∧ i < 0 + 2) →
        res.getD i 0 = ([0, 5, 0, 0] : List Int).getD i 0) :=
  ⟨by decide, by decide,
    C2_update_overwrites_from_first_free_position [0, 5, 0, 0] 0 2 7 0
      (by decide) (by decide)⟩

/-- C3, violation witnessed on the code: on `threeJobInstance` (two
processors) the LP rounding of the virtual processing times
`[[1,1],[10,6],[0,1]]` yields allotments `[1, 1, 2]`, and the list-scheduler
back end (compress mode) then returns a schedule in which, at instant 2,
job 1 (allotment 1, running on `[0, 10)`) and job 2 (allotment 2, running on
`[2, 3)`) overlap for a total allotment of 3 > 2 processors. -/
theorem C3_capacity_violated :
    lpAllotments threeJobInstance [[1, 1], [10, 6], [0, 1]] = [1, 1, 2] ∧
    (lpSchedule threeJobInstance [[1, 1], [10, 6], [0, 1]] [0, 0, 0] true).map
        (fun S => usageAt S 2) = some 3 ∧
    threeJobInstance.processor_count = 2 := by
  refine ⟨by decide, by decide, by decide⟩

/-- C4, divergence witnessed on the code: chains `[[0,1]]`, state with job 0
committed at allotment 2 and completion 4, candidate job 1 at allotment 1
and completion 6. The code's sweep charges the committed front with the
CANDIDATE's allotment (1) and omits the candidate's own events, so it sees a
peak of 1 and accepts; the sweep the claim describes (front at its own
committed allotment 2, plus candidate events) sees a peak of 3 > 2 and
rejects. -/
theorem C4_sweep_charges_candidate_allotment :
    capacityPairs chainedPairInstance [[0, 1]] ⟨[1], [2], [4]⟩ 1 1 = [(2, 1), (4, -1)] ∧
    capacityCheckCode chainedPairInstance [[0, 1]] ⟨[1], [2], [4]⟩ 1 1 = true ∧
    capacityCheckClaim chainedPairInstance [[0, 1]] ⟨[1], [2], [4]⟩ 1 1 6 = false := by
  refine ⟨by decide, by decide, by decide⟩

/-- C5, counterexample: with the single chain `[0, 1]` (so there is no
"other" chain at all), job 0 committed with completion 5, and candidate
job 1 with tentative start 3, the code rejects — its loop also checks the
candidate's OWN chain — while the claimed condition (quantifying over other
chains only) does not reject. -/
theorem C5_counterexample :
    cond2Reject chainedUnitInstance [[0, 1]] ⟨[1], [1], [5]⟩ 1 3 = true ∧
    cond2RejectClaim chainedUnitInstance [[0, 1]] ⟨[1], [1], [5]⟩ 0 1 3 = false := by
  refine ⟨by decide, by decide⟩

/-- C5 (amended): provided every chain has a committed front (nonzero
`ideal`, so the filter-before-enumerate does not shift indices), condition 2
rejects exactly when SOME chain `c'` — including the candidate's own chain —
has a front job that directly precedes the new job and the tentative start
time is before the completion time stored for that same chain `c'`. -/
theorem C5_cond2_amended (I : ProblemInstance) (chains : List (List Nat))
    (st : DpState) (new_job_index : Nat) (new_start_time : Int)
    (hnz : ∀ i ∈ st.ideal, i ≠ 0) :
    cond2Reject I chains st new_job_index new_start_time = true ↔
      ∃ c', c' < st.ideal.length ∧
        less_than I.constraints
          ((I.jobs.getD ((chains.getD c' []).getD (st.ideal.getD c' 0 - 1) 0) default).index)
          ((I.jobs.getD new_job_index default).index) = true ∧
        new_start_time < st.completion_times.getD c' 0 := by
  have hfilter : st.ideal.filter (· ≠ 0) = st.ideal :=
    List.filter_eq_self.mpr fun a ha => by simpa using hnz a ha
  rw [cond2Reject, hfilter, List.any_eq_true]
  constructor
  · rintro ⟨⟨c', i⟩, hmem, hp⟩
    rw [List.mem_enum_iff_getElem?] at hmem
    have hc' : c' < st.ideal.length := by
      by_contra hge
      rw [List.getElem?_eq_none (Nat.le_of_not_lt hge)] at hmem
      exact Option.noConfusion hmem
    have hgetD : st.ideal.getD c' 0 = i := by
      rw [List.getD_eq_getElem?_getD, hmem]; rfl
    simp only [Bool.and_eq_true, decide_eq_true_eq] at hp
    exact ⟨c', hc', by rw [hgetD]; exact hp.1, hp.2⟩
  · rintro ⟨c', hc', hlt, hct⟩
    refine ⟨(c', st.ideal.getD c' 0), ?_, ?_⟩
    · rw [List.mem_enum_iff_getElem?, List.getElem?_eq_getElem hc',
        List.getD_eq_getElem _ _ hc']
    · simp only [Bool.and_eq_true, decide_eq_true_eq]
      exact ⟨hlt, hct⟩

/-- Witness for the amended C5 at the single-chain counterexample input. -/
theorem C5_cond2_amended_witness :
    (∀ i ∈ ([1] : List Nat), i ≠ 0) ∧
    (cond2Reject chainedUnitInstance [[0, 1]] ⟨[1], [1], [5]⟩ 1 3 = true ↔
      ∃ c', c' < ([1] : List Nat).length ∧
        less_than chainedUnitInstance.constraints
          ((chainedUnitInstance.jobs.getD
            ((([[0, 1]] : List (List Nat)).getD c' []).getD
              (([1] : List Nat).getD c' 0 - 1) 0) default).index)
          ((chainedUnitInstance.jobs.getD 1 default).index) = true ∧
        (3 : Int) < ([5] : List Int).getD c' 0) :=
  ⟨by decide,
    C5_cond2_amended chainedUnitInstance [[0, 1]] ⟨[1], [1], [5]⟩ 1 3 (by decide)⟩

/-- The product form of the threshold: `rhoTimes p` is `rho * p`. -/
theorem rhoTimes_eq (p : Int) : rhoTimes p = compute_rho * (p : ℚ) := by
  rw [rhoTimes, compute_rho, Rat.mkRat_eq_div, Rat.mkRat_eq_div]
  push_cast
  ring

/-- The max-by-second fold returns its seed or a list element. -/
theorem foldl_maxSnd_mem :
    ∀ (xs : List (Nat × Int)) (x : Nat × Int),
      xs.foldl (fun best y => if best.2 ≤ y.2 then y else best) x = x ∨
      xs.foldl (fun best y => if best.2 ≤ y.2 then y else best) x ∈ xs
  | [], x => Or.inl rfl
  | y :: ys, x => by
    rcases foldl_maxSnd_mem ys (if x.2 ≤ y.2 then y else x) with h | h
    · by_cases hxy : x.2 ≤ y.2
      · right; rw [List.foldl_cons, h, if_pos hxy]; exact List.mem_cons_self y ys
      · left; rw [List.foldl_cons, h, if_neg hxy]
    · right; exact List.mem_cons_of_mem y h

/-- The max-by-second fold dominates its seed and every list element. -/
theorem foldl_maxSnd_le :
    ∀ (xs : List (Nat × Int)) (x : Nat × Int),
      x.2 ≤ (xs.foldl (fun best y => if best.2 ≤ y.2 then y else best) x).2 ∧
      ∀ y ∈ xs, y.2 ≤ (xs.foldl (fun best y => if best.2 ≤ y.2 then y else best) x).2
  | [], x => ⟨le_refl _, by simp⟩
  | y :: ys, x => by
    obtain ⟨hseed, helem⟩ := foldl_maxSnd_le ys (if x.2 ≤ y.2 then y else x)
    rw [List.foldl_cons]
    by_cases hxy : x.2 ≤ y.2
    · rw [if_pos hxy] at hseed helem ⊢
      refine ⟨le_trans hxy hseed, ?_⟩
      intro z hz
      rcases List.mem_cons.mp hz with rfl | hz
      · exact hseed
      · exact helem z hz
    · rw [if_neg hxy] at hseed helem ⊢
      refine ⟨hseed, ?_⟩
      intro z hz
      rcases List.mem_cons.mp hz with rfl | hz
      · exact le_trans (le_of_not_le hxy) hseed
      · exact helem z hz

/-- `maxBySndLast` of a nonempty list is an element dominating all others. -/
theorem maxBySndLast_spec (l : List (Nat × Int)) (hne : l ≠ []) :
    ∃ b, maxBySndLast l = some b ∧ b ∈ l ∧ ∀ y ∈ l, y.2 ≤ b.2 := by
  match l with
  | [] => exact absurd rfl hne
  | x :: xs =>
    refine ⟨_, rfl, ?_, ?_⟩
    · rcases foldl_maxSnd_mem xs x with h | h
      · rw [h]; exact List.mem_cons_self x xs
      · exact List.mem_cons_of_mem x h
    · intro y hy
      obtain ⟨hseed, helem⟩ := foldl_maxSnd_le xs x
      rcases List.mem_cons.mp hy with rfl | hy
      · exact hseed
      · exact helem y hy

/-- On a list whose keys are all equal, `maxBySndLast` returns the LAST
element (this pins down Rust's `max_by_key` tie-breaking). -/
theorem foldl_maxSnd_const (c : Int) :
    ∀ (xs : List (Nat × Int)) (x : Nat × Int), x.2 = c → (∀ y ∈ xs, y.2 = c) →
      some (xs.foldl (fun best y => if best.2 ≤ y.2 then y else best) x) =
        (x :: xs).getLast?
  | [], x => by intro _ _; rfl
  | y :: ys, x => by
    intro hx hall
    have hxy : x.2 ≤ y.2 := by
      rw [hx, hall y (List.mem_cons_self y ys)]
    rw [List.foldl_cons, if_pos hxy, List.getLast?_cons_cons]
    exact foldl_maxSnd_const c ys y (hall y (List.mem_cons_self y ys))
      (fun z hz => hall z (List.mem_cons_of_mem y hz))

/-- `maxBySndLast` on an all-equal-keys list is the last element. -/
theorem maxBySndLast_const (l : List (Nat × Int)) (c : Int)
    (h : ∀ y ∈ l, y.2 = c) : maxBySndLast l = l.getLast? := by
  match l with
  | [] => rfl
  | x :: xs =>
    rw [maxBySndLast]
    exact foldl_maxSnd_const c xs x (h x (List.mem_cons_self x xs))
      (fun z hz => h z (List.mem_cons_of_mem x hz))

/-- C6, counterexample: with `m = 2`, processing times `[4, 2]` and solved
virtual processing times `[0, 0]`, no allotment level qualifies (both values
are below `rho` times the processing time), yet the rounding returns
allotment 2 = m, not the claimed default 1. -/
theorem C6_counterexample :
    roundAllotment 2 [4, 2] [0, 0] = 2 ∧
    roundAllotment 2 [4, 2] [0, 0] ≠ 1 ∧
    (∀ i, i < 2 → ([(0 : ℚ), 0].getD i 0) < rhoTimes (([4, 2] : List Int).getD i 0)) := by
  refine ⟨by decide, by decide, by decide⟩

/-- C6 (amended): a level `i` is a candidate exactly when
`y[j, i] ≥ rho * p[j, i]`; among candidates the rounding picks a level
maximizing `p[j, i]`; but when NO level qualifies the rounding returns `m`
(the last level, all keys being zero and `max_by_key` returning the last
maximum), not 1. -/
theorem C6_rounding_amended (m : Nat) (pts : List Int) (ys : List ℚ)
    (hm : 1 ≤ m) (hlen : pts.length = m) (hpos : ∀ p ∈ pts, 1 ≤ p) :
    (1 ≤ roundAllotment m pts ys ∧ roundAllotment m pts ys ≤ m) ∧
    ((∀ i, i < m → ys.getD i 0 < compute_rho * ((pts.getD i 0 : Int) : ℚ)) →
      roundAllotment m pts ys = m) ∧
    ((∃ i, i < m ∧ compute_rho * ((pts.getD i 0 : Int) : ℚ) ≤ ys.getD i 0) →
      compute_rho * ((pts.getD (roundAllotment m pts ys - 1) 0 : Int) : ℚ) ≤
          ys.getD (roundAllotment m pts ys - 1) 0 ∧
      ∀ i, i < m → compute_rho * ((pts.getD i 0 : Int) : ℚ) ≤ ys.getD i 0 →
        pts.getD i 0 ≤ pts.getD (roundAllotment m pts ys - 1) 0) := by
  have hne : ((List.range m).map fun i =>
      let p := pts.getD i 0
      if ys.getD i 0 < rhoTimes p then (i + 1, 0) else (i + 1, p)) ≠ [] := by
    intro h
    rw [List.map_eq_nil_iff, List.range_eq_nil] at h
    omega
  obtain ⟨b, hb, hmem, hmax⟩ := maxBySndLast_spec _ hne
  have hval : roundAllotment m pts ys = b.1 := by
    rw [roundAllotment, hb]
    rfl
  obtain ⟨i₀, hi₀, hfi₀⟩ := List.mem_map.mp hmem
  rw [List.mem_range] at hi₀
  refine ⟨?_, ?_, ?_⟩
  · rw [hval, ← hfi₀]
    by_cases hc : ys.getD i₀ 0 < rhoTimes (pts.getD i₀ 0)
    · simp only [hc, if_pos]
      omega
    · simp only [hc, if_neg, not_false_iff]
      omega
  · intro hnone
    have hallzero : ∀ y ∈ (List.range m).map fun i =>
        let p := pts.getD i 0
        if ys.getD i 0 < rhoTimes p then (i + 1, 0) else (i + 1, p),
        y.2 = (0 : Int) := by
      intro y hy
      obtain ⟨i, hi, hfi⟩ := List.mem_map.mp hy
      rw [List.mem_range] at hi
      have hlt : ys.getD i 0 < rhoTimes (pts.getD i 0) := by
        rw [rhoTimes_eq]
        exact hnone i hi
      rw [← hfi]
      simp only [hlt, if_pos]
    have hlast := maxBySndLast_const _ 0 hallzero
    rw [hb] at hlast
    obtain ⟨k, hk⟩ : ∃ k, m = k + 1 := ⟨m - 1, (Nat.succ_pred_eq_of_pos hm).symm⟩
    subst hk
    rw [List.range_succ, List.map_append] at hlast
    simp only [List.map_cons, List.map_nil] at hlast
    rw [List.getLast?_concat] at hlast
    have hbk : b = ((fun i =>
        let p := pts.getD i 0
        if ys.getD i 0 < rhoTimes p then (i + 1, 0) else (i + 1, p)) k) :=
      Option.some.inj hlast
    have hlt : ys.getD k 0 < rhoTimes (pts.getD k 0) := by
      rw [rhoTimes_eq]
      exact hnone k (Nat.lt_succ_self k)
    rw [hval, hbk]
    simp only [hlt, if_pos]
  · intro hsome
    obtain ⟨i, hi, hcand⟩ := hsome
    have hkey1 : (1 : Int) ≤ b.2 := by
      have hni : ¬ (ys.getD i 0 < rhoTimes (pts.getD i 0)) := by
        rw [rhoTimes_eq]
        exact not_lt.mpr hcand
      have hmemi : ((i + 1, pts.getD i 0) : Nat × Int) ∈
          (List.range m).map fun i =>
            let p := pts.getD i 0
            if ys.getD i 0 < rhoTimes p then (i + 1, 0) else (i + 1, p) := by
        refine List.mem_map.mpr ⟨i, List.mem_range.mpr hi, ?_⟩
        simp only [hni, if_neg, not_false_iff]
      have hple := hmax _ hmemi
      have hpi : (1 : Int) ≤ pts.getD i 0 := by
        have : pts.getD i 0 ∈ pts := by
          rw [List.getD_eq_getElem pts 0 (hlen ▸ hi)]
          exact List.getElem_mem _
        exact hpos _ this
      exact le_trans hpi hple
    have hcand₀ : ¬ (ys.getD i₀ 0 < rhoTimes (pts.getD i₀ 0)) := by
      intro hlt
      rw [← hfi₀] at hkey1
      simp only [hlt, if_pos] at hkey1
      omega
    have hbeq : b = (i₀ + 1, pts.getD i₀ 0) := by
      rw [← hfi₀]
      simp only [hcand₀, if_neg, not_false_iff]
    have hr : roundAllotment m pts ys - 1 = i₀ := by
      rw [hval, hbeq]
      omega
    constructor
    · rw [hr]
      rw [rhoTimes_eq] at hcand₀
      exact not_lt.mp hcand₀
    · intro j hj hcj
      rw [hr]
      have hnj : ¬ (ys.getD j 0 < rhoTimes (pts.getD j 0)) := by
        rw [rhoTimes_eq]
        exact not_lt.mpr hcj
      have hmemj : ((j + 1, pts.getD j 0) : Nat × Int) ∈
          (List.range m).map fun i =>
            let p := pts.getD i 0
            if ys.getD i 0 < rhoTimes p then (i + 1, 0) else (i + 1, p) := by
        refine List.mem_map.mpr ⟨j, List.mem_range.mpr hj, ?_⟩
        simp only [hnj, if_neg, not_false_iff]
      have := hmax _ hmemj
      rw [hbeq] at this
      exact this

/-- Witness for the amended C6 at `m = 2`, `p = [4, 2]`, `y = [0, 4]`. -/
theorem C6_rounding_amended_witness :
    ((1 : Nat) ≤ 2 ∧ ([4, 2] : List Int).length = 2 ∧ ∀ p ∈ ([4, 2] : List Int), 1 ≤ p) ∧
    ((1 ≤ roundAllotment 2 [4, 2] [0, 4] ∧ roundAllotment 2 [4, 2] [0, 4] ≤ 2) ∧
     ((∀ i, i < 2 → (([(0 : ℚ), 4]).getD i 0) <
         compute_rho * ((([4, 2] : List Int).getD i 0 : Int) : ℚ)) →
       roundAllotment 2 [4, 2] [0, 4] = 2) ∧
     ((∃ i, i < 2 ∧ compute_rho * ((([4, 2] : List Int).getD i 0 : Int) : ℚ) ≤
         ([(0 : ℚ), 4]).getD i 0) →
       compute_rho * ((([4, 2] : List Int).getD (roundAllotment 2 [4, 2] [0, 4] - 1) 0 : Int) : ℚ) ≤
           ([(0 : ℚ), 4]).getD (roundAllotment 2 [4, 2] [0, 4] - 1) 0 ∧
       ∀ i, i < 2 → compute_rho * ((([4, 2] : List Int).getD i 0 : Int) : ℚ) ≤
           ([(0 : ℚ), 4]).getD i 0 →
         ([4, 2] : List Int).getD i 0 ≤
           ([4, 2] : List Int).getD (roundAllotment 2 [4, 2] [0, 4] - 1) 0)) :=
  ⟨⟨by decide, by decide, by decide⟩,
    C6_rounding_amended 2 [4, 2] [0, 4] (by decide) (by decide) (by decide)⟩

/-- A direct `less_than` answer comes from a constraint in the list. -/
theorem less_than_mem {relation : List Constraint} {u v : Nat}
    (h : less_than relation u v = true) : (u, v) ∈ relation := by
  rw [less_than, beq_iff_eq] at h
  obtain ⟨c, hc, hfc⟩ := List.exists_of_findSome?_eq_some h
  by_cases h1 : u = c.1 ∧ v = c.2
  · obtain ⟨h11, h12⟩ := h1
    have : (u, v) = c := Prod.ext h11 h12
    rw [this]
    exact hc
  · rw [if_neg h1] at hfc
    by_cases h2 : v = c.1 ∧ u = c.2
    · rw [if_pos h2] at hfc
      exact absurd hfc (by simp)
    · rw [if_neg h2] at hfc
      exact absurd hfc (by simp)

/-- A finite nonempty set of jobs with acyclic constraints has a member that
no other member reaches transitively (the candidate the list scheduler can
always pick). -/
theorem exists_minimal_transGen {R : Nat → Nat → Prop}
    (hacyc : ∀ a, ¬ Relation.TransGen R a a) :
    ∀ A : List Nat, A ≠ [] → ∃ j ∈ A, ∀ k ∈ A, ¬ Relation.TransGen R k j := by
  intro A
  induction A with
  | nil => intro h; exact absurd rfl h
  | cons a rest ih =>
    intro _
    by_cases hrest : rest = []
    · subst hrest
      refine ⟨a, List.mem_cons_self a [], ?_⟩
      intro k hk
      rw [List.mem_singleton] at hk
      subst hk
      exact hacyc k
    · obtain ⟨j, hjmem, hjmin⟩ := ih hrest
      by_cases haj : Relation.TransGen R a j
      · refine ⟨a, List.mem_cons_self a rest, ?_⟩
        intro k hk
        rcases List.mem_cons.mp hk with rfl | hk
        · exact hacyc k
        · intro hka
          exact hjmin k hk (hka.trans haj)
      · refine ⟨j, List.mem_cons_of_mem a hjmem, ?_⟩
        intro k hk
        rcases List.mem_cons.mp hk with rfl | hk
        · exact haj
        · exact hjmin k hk

/-- In a pair list whose first components are `0, 1, …, n-1` in order, the
entry at position `k` has first component `k`. -/
theorem fst_get_of_map_fst_range {l : List (Nat × Bool)} {n : Nat}
    (h : l.map Prod.fst = List.range n) (k : Nat) (hk : k < l.length) :
    (l.get ⟨k, hk⟩).1 = k := by
  have h1 : (l.map Prod.fst)[k]? = some ((l.get ⟨k, hk⟩).1) := by
    rw [List.getElem?_map, List.getElem?_eq_getElem hk]
    rw [List.get_eq_getElem]
    rfl
  rw [h] at h1
  have hk2 : k < n := by
    rw [← List.length_range n, ← h, List.length_map]
    exact hk
  rw [List.getElem?_range hk2] at h1
  exact (Option.some.inj h1).symm

/-- The length of such a pair list is `n`. -/
theorem length_of_map_fst_range {l : List (Nat × Bool)} {n : Nat}
    (h : l.map Prod.fst = List.range n) : l.length = n := by
  rw [← List.length_map l Prod.fst, h, List.length_range]

/-- In such a pair list, a member with first component `k` IS the entry at
position `k`. -/
theorem mem_eq_get_of_map_fst_range {l : List (Nat × Bool)} {n : Nat}
    (h : l.map Prod.fst = List.range n) {x : Nat × Bool} (hx : x ∈ l)
    (hk : x.1 < l.length) : l.get ⟨x.1, hk⟩ = x := by
  obtain ⟨i, hi⟩ := List.mem_iff_get.mp hx
  have : (l.get i).1 = i.val := fst_get_of_map_fst_range h i.val (by exact i.isLt)
  have hival : i.val = x.1 := by rw [← this, hi]
  have : (⟨x.1, hk⟩ : Fin l.length) = i := by
    apply Fin.ext
    exact hival.symm
  rw [this, hi]

/-- Marking a currently-true flag false drops the count of true flags by
exactly one. -/
theorem filter_length_set_false :
    ∀ (l : List (Nat × Bool)) (k : Nat) (hk : k < l.length) (x : Nat),
      (l.get ⟨k, hk⟩).2 = true →
      (l.filter (·.2)).length = ((l.set k (x, false)).filter (·.2)).length + 1
  | [], k, hk => by simp at hk
  | a :: t, 0, hk => by
    intro x ha
    have : a.2 = true := ha
    simp [List.filter_cons, this]
  | a :: t, k + 1, hk => by
    intro x ha
    have ih := filter_length_set_false t k (Nat.lt_of_succ_lt_succ hk) x ha
    rw [List.set_cons_succ]
    by_cases h2 : a.2
    · simp only [List.filter_cons, h2, if_pos, List.length_cons]
      omega
    · simp only [List.filter_cons, h2, Bool.false_eq_true, if_neg, not_false_iff]
      exact ih

/-- The min-by-second fold returns its seed or a list element. -/
theorem foldl_minSnd_mem :
    ∀ (xs : List (Nat × Int)) (x : Nat × Int),
      xs.foldl (fun best y => if y.2 < best.2 then y else best) x = x ∨
      xs.foldl (fun best y => if y.2 < best.2 then y else best) x ∈ xs
  | [], x => Or.inl rfl
  | y :: ys, x => by
    rcases foldl_minSnd_mem ys (if y.2 < x.2 then y else x) with h | h
    · by_cases hxy : y.2 < x.2
      · right; rw [List.foldl_cons, h, if_pos hxy]; exact List.mem_cons_self y ys
      · left; rw [List.foldl_cons, h, if_neg hxy]
    · right; exact List.mem_cons_of_mem y h

/-- `minBySndFirst` of a nonempty list returns one of its elements. -/
theorem minBySndFirst_mem {l : List (Nat × Int)} {x : Nat × Int}
    (h : minBySndFirst l = some x) : x ∈ l := by
  match l, h with
  | y :: ys, h =>
    rw [minBySndFirst] at h
    have hx := Option.some.inj h
    rcases foldl_minSnd_mem ys y with h1 | h1
    · rw [← hx, h1]; exact List.mem_cons_self y ys
    · rw [← hx]; exact List.mem_cons_of_mem y h1

/-- The machine search of the list scheduler: when the occupation vector has
length `m`, the allotment lies in `[1, m]`, and the position `m - allotment`
is free by `start`, the first free position exists and leaves room for the
whole block. -/
theorem machineFind {occ : List Int} {m a : Nat} {start : Int}
    (hlen : occ.length = m) (h1 : 1 ≤ a) (h2 : a ≤ m)
    (hfit : occ.getD (m - a) 0 ≤ start) :
    ∃ machine, findFirstIdx (fun o => o ≤ start) occ = some machine ∧
      machine ≤ m - a ∧ machine + a ≤ m := by
  have hma : m - a < occ.length := by omega
  have hp : (fun o => decide (o ≤ start)) (occ.getD (m - a) 0) = true := by
    simpa using hfit
  obtain ⟨i, hi, hile⟩ :=
    findFirstIdx_le (p := fun o => decide (o ≤ start)) 0 hma hp
  exact ⟨i, hi, hile, by omega⟩

/-- The rounded allotment always lies in `[1, m]` when there are `m ≥ 1`
levels. -/
theorem roundAllotment_bounds (m : Nat) (pts : List Int) (ys : List ℚ)
    (hm : 1 ≤ m) :
    1 ≤ roundAllotment m pts ys ∧ roundAllotment m pts ys ≤ m := by
  have hne : ((List.range m).map fun i =>
      let p := pts.getD i 0
      if ys.getD i 0 < rhoTimes p then (i + 1, 0) else (i + 1, p)) ≠ [] := by
    intro h
    rw [List.map_eq_nil_iff, List.range_eq_nil] at h
    omega
  obtain ⟨b, hb, hmem, _⟩ := maxBySndLast_spec _ hne
  have hval : roundAllotment m pts ys = b.1 := by
    rw [roundAllotment, hb]
    rfl
  obtain ⟨i, hi, hfi⟩ := List.mem_map.mp hmem
  rw [List.mem_range] at hi
  rw [hval, ← hfi]
  by_cases hc : ys.getD i 0 < rhoTimes (pts.getD i 0)
  · simp only [hc, if_pos]
    omega
  · simp only [hc, if_neg, not_false_iff]
    omega

/-- Reading back a list by `getD` over its range of positions recovers it. -/
theorem map_getD_range_eq {α : Type} (l : List α) (d : α) :
    (List.range l.length).map (fun k => l.getD k d) = l := by
  apply List.ext_getElem
  · rw [List.length_map, List.length_range]
  · intro i h1 h2
    rw [List.getElem_map, List.getElem_range, List.getD_eq_getElem l d h2]

/-- All entries of the written occupation vector stay nonnegative. -/
theorem writeBlock_nonneg {occ : List Int} {machine a : Nat} {done : Int}
    (hdone : 0 ≤ done) (hocc : ∀ o ∈ occ, 0 ≤ o) :
    ∀ o ∈ writeBlock occ machine a done, 0 ≤ o := by
  intro o ho
  rw [writeBlock] at ho
  obtain ⟨i, hi, hfi⟩ := List.mem_map.mp ho
  rw [List.mem_range] at hi
  by_cases hin : machine ≤ i ∧ i < machine + a
  · rw [if_pos hin] at hfi
    rw [← hfi]
    exact hdone
  · rw [if_neg hin] at hfi
    rw [← hfi]
    refine hocc _ ?_
    rw [List.getD_eq_getElem occ 0 hi]
    exact List.getElem_mem hi

/-- Setting position `k` of `range n` to `k` changes nothing. -/
theorem range_set_self (n k : Nat) : (List.range n).set k k = List.range n := by
  apply List.ext_getElem
  · rw [List.length_set]
  · intro i h1 h2
    rw [List.getElem_set]
    by_cases hik : k = i
    · subst hik
      rw [if_pos rfl, List.getElem_range]
    · rw [if_neg hik]


/-- Main loop argument: with acyclic constraints, positive processing-time
vectors of length `m`, position-consistent job indices and in-range
allotments, the list-scheduler loop never panics and, started from a
consistent intermediate state, ends with every job index scheduled exactly
once and all scheduled jobs well-formed. -/
theorem listLoop_complete (I : ProblemInstance) (allots : List Nat)
    (cts : List Int) (compress : Bool)
    (hacyc : ∀ a, ¬ Relation.TransGen
      (fun u v => ((u, v) : Constraint) ∈ I.constraints) a a)
    (hidx : ∀ k, k < I.jobs.length → (I.jobs.getD k default).index = k)
    (hpt : ∀ job ∈ I.jobs, job.processing_times.length = I.processor_count ∧
      ∀ p ∈ job.processing_times, 1 ≤ p)
    (hallot : ∀ k, k < I.jobs.length →
      1 ≤ allots.getD k 0 ∧ allots.getD k 0 ≤ I.processor_count) :
    ∀ (fuel : Nat) (avail : List (Nat × Bool)) (scheduled : List ScheduledJob)
      (occ : List Int),
      avail.map Prod.fst = List.range I.jobs.length →
      (avail.filter (·.2)).length = fuel →
      (∀ k (hk : k < avail.length),
        ((avail.get ⟨k, hk⟩).2 = false ↔ ∃ s ∈ scheduled, s.job.index = k)) →
      (scheduled.map (fun s => s.job.index)).Nodup →
      (∀ s ∈ scheduled, s.job.index < I.jobs.length ∧ 1 ≤ s.allotment ∧
        s.allotment ≤ I.processor_count ∧ 0 ≤ s.start_time ∧
        s.job = I.jobs.getD s.job.index default) →
      occ.length = I.processor_count →
      (∀ o ∈ occ, 0 ≤ o) →
      ∃ S, listLoop I allots cts compress fuel avail scheduled occ = some S ∧
        (S.map (fun s => s.job.index)).Nodup ∧
        (∀ s ∈ S, s.job.index < I.jobs.length ∧ 1 ≤ s.allotment ∧
          s.allotment ≤ I.processor_count ∧ 0 ≤ s.start_time ∧
          s.job = I.jobs.getD s.job.index default) ∧
        (∀ k, k < I.jobs.length → ∃ s ∈ S, s.job.index = k) := by
  intro fuel
  induction fuel with
  | zero =>
    intro avail scheduled occ hA1 hA2 hA3 hA4 hA5 _ _
    refine ⟨scheduled, rfl, hA4, hA5, ?_⟩
    intro k hk
    have hlenavail : avail.length = I.jobs.length := length_of_map_fst_range hA1
    have hk' : k < avail.length := by omega
    rw [List.length_eq_zero] at hA2
    have hfalse : (avail.get ⟨k, hk'⟩).2 = false := by
      rcases Bool.eq_false_or_eq_true (avail.get ⟨k, hk'⟩).2 with h | h
      · exfalso
        have hmemf : avail.get ⟨k, hk'⟩ ∈ avail.filter (·.2) :=
          List.mem_filter.mpr ⟨List.get_mem _ _ _, h⟩
        rw [hA2] at hmemf
        exact absurd hmemf (List.not_mem_nil _)
      · exact h
    exact (hA3 k hk').mp hfalse
  | succ fuel ih =>
    intro avail scheduled occ hA1 hA2 hA3 hA4 hA5 hA6 hA7
    have hlenavail : avail.length = I.jobs.length := length_of_map_fst_range hA1
    have hAne : (avail.filter (·.2)).map Prod.fst ≠ [] := by
      intro h
      rw [List.map_eq_nil_iff] at h
      rw [h] at hA2
      exact absurd hA2 (by simp)
    obtain ⟨j, hjA, hjmin⟩ := exists_minimal_transGen hacyc _ hAne
    obtain ⟨jb, hjbT, hjbfst⟩ := List.mem_map.mp hjA
    have hjbavail : jb ∈ avail := (List.mem_filter.mp hjbT).1
    have hjbtrue : jb.2 = true := (List.mem_filter.mp hjbT).2
    have hjn : j < I.jobs.length := by
      have hmemr : jb.1 ∈ avail.map Prod.fst := List.mem_map_of_mem Prod.fst hjbavail
      rw [hA1, List.mem_range, hjbfst] at hmemr
      exact hmemr
    have hready : isReady I scheduled j = true := by
      rw [isReady, List.all_eq_true]
      intro p hp
      rw [predecessors, List.mem_filter] at hp
      obtain ⟨hpenum, hpcond⟩ := hp
      rw [decide_eq_true_eq] at hpcond
      obtain ⟨hne', hlt⟩ := hpcond
      rw [List.mem_enum_iff_getElem?] at hpenum
      have hp1 : p.1 < I.jobs.length := by
        by_contra hge
        rw [List.getElem?_eq_none (Nat.le_of_not_lt hge)] at hpenum
        exact Option.noConfusion hpenum
      have hp2 : p.2 = I.jobs.getD p.1 default := by
        rw [List.getD_eq_getElem?_getD, hpenum]
        rfl
      have hp2idx : p.2.index = p.1 := by rw [hp2]; exact hidx p.1 hp1
      have hjidx : (I.jobs.getD j default).index = j := hidx j hjn
      have hltm : ((p.1, j) : Constraint) ∈ I.constraints := by
        apply less_than_mem
        rw [hp2idx, hjidx] at hlt
        exact hlt
      have hp1avail : p.1 < avail.length := by omega
      have hflag : (avail.get ⟨p.1, hp1avail⟩).2 = false := by
        rcases Bool.eq_false_or_eq_true (avail.get ⟨p.1, hp1avail⟩).2 with h | h
        · exfalso
          apply hjmin p.1 ?_ (Relation.TransGen.single hltm)
          refine List.mem_map.mpr ⟨avail.get ⟨p.1, hp1avail⟩,
            List.mem_filter.mpr ⟨List.get_mem _ _ _, h⟩, ?_⟩
          exact fst_get_of_map_fst_range hA1 p.1 hp1avail
        · exact h
      obtain ⟨s, hsmem, hsidx⟩ := (hA3 p.1 hp1avail).mp hflag
      rw [List.any_eq_true]
      refine ⟨s, hsmem, ?_⟩
      rw [beq_iff_eq, hsidx, hp2idx]
    have hjready : j ∈ (avail.filter (·.2)).filterMap
        (fun jb => if isReady I scheduled jb.1 then some jb.1 else none) := by
      refine List.mem_filterMap.mpr ⟨jb, hjbT, ?_⟩
      rw [hjbfst, if_pos hready]
    obtain ⟨pick, start, hpick⟩ : ∃ pick start,
        pickJob I allots cts compress occ scheduled avail = some (pick, start) := by
      rw [pickJob]
      cases hC : ((avail.filter (·.2)).filterMap
          (fun jb => if isReady I scheduled jb.1 then some jb.1 else none)).map
          (fun job => (job, earliestStart I allots cts compress occ scheduled job)) with
      | nil =>
        exfalso
        have hmm : (j, earliestStart I allots cts compress occ scheduled j) ∈
            ((avail.filter (·.2)).filterMap
              (fun jb => if isReady I scheduled jb.1 then some jb.1 else none)).map
              (fun job => (job, earliestStart I allots cts compress occ scheduled job)) :=
          List.mem_map_of_mem _ hjready
        rw [hC] at hmm
        exact absurd hmm (List.not_mem_nil _)
      | cons c cs =>
        exact ⟨_, _, rfl⟩
    have hpick' : minBySndFirst (((avail.filter (·.2)).filterMap
        (fun jb => if isReady I scheduled jb.1 then some jb.1 else none)).map
        (fun job => (job, earliestStart I allots cts compress occ scheduled job))) =
        some (pick, start) := by
      rw [← pickJob]
      exact hpick
    have hpickmem := minBySndFirst_mem hpick'
    obtain ⟨pj, hpjmem, hpjeq⟩ := List.mem_map.mp hpickmem
    have hpj1 : pj = pick := congrArg Prod.fst hpjeq
    rw [hpj1] at hpjmem hpjeq
    have hstartval : start = earliestStart I allots cts compress occ scheduled pick :=
      (congrArg Prod.snd hpjeq).symm
    obtain ⟨pb, hpbT, hpbeq⟩ := List.mem_filterMap.mp hpjmem
    have hpbready : isReady I scheduled pb.1 = true := by
      by_contra hnr
      rw [if_neg hnr] at hpbeq
      exact Option.noConfusion hpbeq
    have hpb1 : pb.1 = pick := by
      rw [if_pos hpbready] at hpbeq
      exact Option.some.inj hpbeq
    have hpbavail : pb ∈ avail := (List.mem_filter.mp hpbT).1
    have hpbtrue : pb.2 = true := (List.mem_filter.mp hpbT).2
    have hpickn : pick < I.jobs.length := by
      have hmemr : pb.1 ∈ avail.map Prod.fst := List.mem_map_of_mem Prod.fst hpbavail
      rw [hA1, List.mem_range, hpb1] at hmemr
      exact hmemr
    have hpicklt : pick < avail.length := by omega
    have hpbval : pb = (pick, true) := Prod.ext hpb1 hpbtrue
    have hgetpick : avail.get ⟨pick, hpicklt⟩ = (pick, true) := by
      rw [hpbval] at hpbavail
      exact mem_eq_get_of_map_fst_range hA1 hpbavail hpicklt
    obtain ⟨ha1, ha2⟩ := hallot pick hpickn
    have hsub : occ.length - allots.getD pick 0 < occ.length := by omega
    have hfitnn : 0 ≤ occ.getD (occ.length - allots.getD pick 0) 0 := by
      apply hA7
      rw [List.getD_eq_getElem occ 0 hsub]
      exact List.getElem_mem hsub
    have hstartfit : occ.getD (occ.length - allots.getD pick 0) 0 ≤ start := by
      rw [hstartval]
      simp only [earliestStart]
      exact le_max_right _ _
    have hstartnn : 0 ≤ start := le_trans hfitnn hstartfit
    have hstartfit2 : occ.getD (I.processor_count - allots.getD pick 0) 0 ≤ start := by
      rw [← hA6]
      exact hstartfit
    obtain ⟨machine, hmach, hmachle, hmachroom⟩ := machineFind hA6 ha1 ha2 hstartfit2
    have hjobmem : I.jobs.getD pick default ∈ I.jobs := by
      rw [List.getD_eq_getElem _ _ hpickn]
      exact List.getElem_mem hpickn
    obtain ⟨hptlen, hptpos⟩ := hpt _ hjobmem
    have hptval : 1 ≤ (I.jobs.getD pick default).processing_time (allots.getD pick 0) := by
      rw [Job.processing_time]
      apply hptpos
      have hidxlt : allots.getD pick 0 - 1 <
          (I.jobs.getD pick default).processing_times.length := by
        rw [hptlen]
        omega
      rw [List.getD_eq_getElem _ _ hidxlt]
      exact List.getElem_mem hidxlt
    have hdonenn : 0 ≤ ScheduledJob.completion_time
        ⟨I.jobs.getD pick default, allots.getD pick 0, start⟩ := by
      show 0 ≤ start + (I.jobs.getD pick default).processing_time (allots.getD pick 0)
      omega
    have hroom2 : machine + allots.getD pick 0 ≤ occ.length := by omega
    have hupd : updateOccupation occ start (allots.getD pick 0)
        (ScheduledJob.completion_time
          ⟨I.jobs.getD pick default, allots.getD pick 0, start⟩) =
        some (writeBlock occ machine (allots.getD pick 0)
          (ScheduledJob.completion_time
            ⟨I.jobs.getD pick default, allots.getD pick 0, start⟩)) := by
      simp only [updateOccupation, hmach, if_pos hroom2]
    have hsjidx : (I.jobs.getD pick default).index = pick := hidx pick hpickn
    have hstep : listLoop I allots cts compress (fuel + 1) avail scheduled occ =
        listLoop I allots cts compress fuel (avail.set pick (pick, false))
          (scheduled ++ [⟨I.jobs.getD pick default, allots.getD pick 0, start⟩])
          (writeBlock occ machine (allots.getD pick 0)
            (ScheduledJob.completion_time
              ⟨I.jobs.getD pick default, allots.getD pick 0, start⟩)) := by
      simp only [listLoop, hpick, hupd]
    rw [hstep]
    apply ih
    · rw [List.map_set, hA1]
      exact range_set_self I.jobs.length pick
    · have hcount := filter_length_set_false avail pick hpicklt pick (by rw [hgetpick])
      omega
    · intro k hk
      have hklen : k < avail.length := by
        rw [List.length_set] at hk
        exact hk
      by_cases hkp : k = pick
      · subst hkp
        constructor
        · intro _
          refine ⟨⟨I.jobs.getD k default, allots.getD k 0, start⟩,
            List.mem_append_right _ (List.mem_singleton_self _), hsjidx⟩
        · intro _
          rw [List.get_eq_getElem, List.getElem_set_self]
      · have hgetk : (avail.set pick (pick, false)).get ⟨k, hk⟩ =
            avail.get ⟨k, hklen⟩ := by
          rw [List.get_eq_getElem, List.get_eq_getElem,
            List.getElem_set_ne (by omega : pick ≠ k)]
        rw [hgetk, hA3 k hklen]
        constructor
        · rintro ⟨s, hs, hsi⟩
          exact ⟨s, List.mem_append_left _ hs, hsi⟩
        · rintro ⟨s, hs, hsi⟩
          rcases List.mem_append.mp hs with hs | hs
          · exact ⟨s, hs, hsi⟩
          · rw [List.mem_singleton] at hs
            subst hs
            exact absurd (by rw [← hsi]; exact hsjidx) hkp
    · rw [List.map_append]
      apply List.Nodup.append hA4
      · simp
      · intro x hx1 hx2
        simp only [List.map_cons, List.map_nil, List.mem_singleton] at hx2
        obtain ⟨s, hs, hsi⟩ := List.mem_map.mp hx1
        have hflagfalse : (avail.get ⟨pick, hpicklt⟩).2 = false := by
          apply (hA3 pick hpicklt).mpr
          refine ⟨s, hs, ?_⟩
          rw [hsi, hx2, hsjidx]
        rw [hgetpick] at hflagfalse
        exact absurd hflagfalse (by simp)
    · intro s hs
      rcases List.mem_append.mp hs with hs | hs
      · exact hA5 s hs
      · rw [List.mem_singleton] at hs
        subst hs
        refine ⟨?_, ha1, ha2, hstartnn, ?_⟩
        · show (I.jobs.getD pick default).index < I.jobs.length
          rw [hsjidx]
          exact hpickn
        · show I.jobs.getD pick default =
            I.jobs.getD (I.jobs.getD pick default).index default
          rw [hsjidx]
    · rw [writeBlock_length]
      exact hA6
    · exact writeBlock_nonneg hdonenn hA7

/-- C9: for every instance with `m ≥ 1`, acyclic constraints,
position-consistent indices and positive processing-time vectors of length
`m`, and for EVERY solved LP (arbitrary virtual processing times `ys` and
rounded target completion times `cts`, negative suggested starts included),
the LP solver's rounding plus list-scheduling returns a schedule containing
every input job exactly once, with allotment in `[1, m]` and start time
`≥ 0`. -/
theorem C9_lp_coverage (I : ProblemInstance) (ys : List (List ℚ))
    (cts : List Int) (compress : Bool)
    (hm : 1 ≤ I.processor_count)
    (hacyc : ∀ a, ¬ Relation.TransGen
      (fun u v => ((u, v) : Constraint) ∈ I.constraints) a a)
    (hidx : ∀ k, k < I.jobs.length → (I.jobs.getD k default).index = k)
    (hpt : ∀ job ∈ I.jobs, job.processing_times.length = I.processor_count ∧
      ∀ p ∈ job.processing_times, 1 ≤ p) :
    ∃ S, lpSchedule I ys cts compress = some S ∧
      (S.map (fun s => s.job)).Perm I.jobs ∧
      ∀ s ∈ S, 1 ≤ s.allotment ∧ s.allotment ≤ I.processor_count ∧
        0 ≤ s.start_time := by
  have hallot : ∀ k, k < I.jobs.length →
      1 ≤ (lpAllotments I ys).getD k 0 ∧
      (lpAllotments I ys).getD k 0 ≤ I.processor_count := by
    intro k hk
    rw [lpAllotments, getD_map_range _ 0 hk]
    exact roundAllotment_bounds I.processor_count
      (I.jobs.getD k default).processing_times (ys.getD k []) hm
  have hinit :=
    listLoop_complete I (lpAllotments I ys) cts compress hacyc hidx hpt hallot
      I.jobs.length ((List.range I.jobs.length).map fun i => (i, true)) []
      (List.replicate I.processor_count 0)
  have hA1 : ((List.range I.jobs.length).map fun i => ((i, true) : Nat × Bool)).map
      Prod.fst = List.range I.jobs.length := by
    apply List.ext_getElem
    · simp
    · intro i h1 h2
      simp
  have hfil : ((List.range I.jobs.length).map fun i => ((i, true) : Nat × Bool)).filter
      (·.2) = (List.range I.jobs.length).map fun i => ((i, true) : Nat × Bool) := by
    apply List.filter_eq_self.mpr
    intro a ha
    obtain ⟨i, _, hfi⟩ := List.mem_map.mp ha
    rw [← hfi]
  have hA2 : (((List.range I.jobs.length).map fun i => ((i, true) : Nat × Bool)).filter
      (·.2)).length = I.jobs.length := by
    rw [hfil, List.length_map, List.length_range]
  have hA3 : ∀ k (hk : k < ((List.range I.jobs.length).map
      fun i => ((i, true) : Nat × Bool)).length),
      ((((List.range I.jobs.length).map fun i => ((i, true) : Nat × Bool)).get
        ⟨k, hk⟩).2 = false ↔ ∃ s ∈ ([] : List ScheduledJob), s.job.index = k) := by
    intro k hk
    constructor
    · intro h
      rw [List.get_eq_getElem, List.getElem_map] at h
      exact absurd h (by simp)
    · rintro ⟨s, hs, _⟩
      exact absurd hs (List.not_mem_nil s)
  obtain ⟨S, hS, hnodup, hprops, hcover⟩ := hinit hA1 hA2 hA3 (by simp)
    (by intro s hs; exact absurd hs (List.not_mem_nil s))
    (List.length_replicate _ _)
    (by intro o ho; rw [List.eq_of_mem_replicate ho])
  refine ⟨S, hS, ?_, ?_⟩
  · have hsub1 : S.map (fun s => s.job.index) ⊆ List.range I.jobs.length := by
      intro x hx
      obtain ⟨s, hs, hsi⟩ := List.mem_map.mp hx
      rw [List.mem_range, ← hsi]
      exact (hprops s hs).1
    have hsub2 : List.range I.jobs.length ⊆ S.map (fun s => s.job.index) := by
      intro k hk
      rw [List.mem_range] at hk
      obtain ⟨s, hs, hsi⟩ := hcover k hk
      exact List.mem_map.mpr ⟨s, hs, hsi⟩
    have hperm : (S.map (fun s => s.job.index)).Perm (List.range I.jobs.length) :=
      (hnodup.subperm hsub1).antisymm ((List.nodup_range I.jobs.length).subperm hsub2)
    have hjobs1 : S.map (fun s => s.job) =
        (S.map (fun s => s.job.index)).map (fun k => I.jobs.getD k default) := by
      rw [List.map_map]
      apply List.map_congr_left
      intro s hs
      exact (hprops s hs).2.2.2.2
    have hmapped := hperm.map (fun k => I.jobs.getD k default)
    rw [map_getD_range_eq I.jobs default] at hmapped
    rw [hjobs1]
    exact hmapped
  · intro s hs
    obtain ⟨_, h1, h2, h3, _⟩ := hprops s hs
    exact ⟨h1, h2, h3⟩

/-- C10: whenever the list scheduler picks a job whose allotment lies in
`[1, m]` (with the occupation vector of length `m`), the picked start time is
at least `occupation[m - allotment]` — the very value the pick maximized
over — so the search for the first position with free time `≤ start_time`
succeeds, the index found is at most `m - allotment`, the "bad start time"
panic is unreachable, and the write to `machine..machine+allotment` stays
within the occupation vector. -/
theorem C10_occupation_write_in_bounds (I : ProblemInstance) (allots : List Nat)
    (cts : List Int) (compress : Bool) (occ : List Int)
    (scheduled : List ScheduledJob) (avail : List (Nat × Bool))
    (pick : Nat) (start : Int)
    (hpick : pickJob I allots cts compress occ scheduled avail = some (pick, start))
    (hlen : occ.length = I.processor_count)
    (h1 : 1 ≤ allots.getD pick 0) (h2 : allots.getD pick 0 ≤ I.processor_count) :
    occ.getD (occ.length - allots.getD pick 0) 0 ≤ start ∧
    ∃ machine, findFirstIdx (fun o => o ≤ start) occ = some machine ∧
      machine ≤ I.processor_count - allots.getD pick 0 ∧
      machine + allots.getD pick 0 ≤ I.processor_count ∧
      ∀ done, updateOccupation occ start (allots.getD pick 0) done =
        some (writeBlock occ machine (allots.getD pick 0) done) := by
  rw [pickJob] at hpick
  have hpickmem := minBySndFirst_mem hpick
  obtain ⟨pj, _, hpjeq⟩ := List.mem_map.mp hpickmem
  have hpj1 : pj = pick := congrArg Prod.fst hpjeq
  rw [hpj1] at hpjeq
  have hstartval : start = earliestStart I allots cts compress occ scheduled pick :=
    (congrArg Prod.snd hpjeq).symm
  have hfit : occ.getD (occ.length - allots.getD pick 0) 0 ≤ start := by
    rw [hstartval]
    simp only [earliestStart]
    exact le_max_right _ _
  have hfit2 : occ.getD (I.processor_count - allots.getD pick 0) 0 ≤ start := by
    rw [← hlen]
    exact hfit
  obtain ⟨machine, hmach, hmachle, hmachroom⟩ := machineFind hlen h1 h2 hfit2
  refine ⟨hfit, machine, hmach, hmachle, hmachroom, ?_⟩
  intro done
  have hroom : machine + allots.getD pick 0 ≤ occ.length := by omega
  simp only [updateOccupation, hmach, if_pos hroom]

/-- Over an empty constraint list there are no precedence paths at all. -/
theorem no_transGen_of_nil (cons : List Constraint) (h : cons = []) (a b : Nat) :
    ¬ Relation.TransGen (fun u v => ((u, v) : Constraint) ∈ cons) a b := by
  intro hT
  induction hT with
  | single hmem =>
    subst h
    exact absurd hmem (List.not_mem_nil _)
  | tail _ hmem _ =>
    subst h
    exact absurd hmem (List.not_mem_nil _)

/-- Witness for C9: three unconstrained jobs on two processors, LP values
whose rounding gives allotments `[1, 1, 2]`, and a NEGATIVE rounded target
completion for job 0 (suggested start `-5 - 2 < 0`), without compression. -/
theorem C9_lp_coverage_witness :
    ∃ S, lpSchedule threeJobInstance [[1, 1], [10, 6], [0, 1]] [-5, 0, 0] false =
        some S ∧
      (S.map (fun s => s.job)).Perm threeJobInstance.jobs ∧
      ∀ s ∈ S, 1 ≤ s.allotment ∧ s.allotment ≤ threeJobInstance.processor_count ∧
        0 ≤ s.start_time :=
  C9_lp_coverage threeJobInstance [[1, 1], [10, 6], [0, 1]] [-5, 0, 0] false
    (by decide) (fun a => no_transGen_of_nil _ rfl a a) (by decide) (by decide)

/-- Witness for C10 at a concrete pick: one processor, two chained jobs, the
first pick is job 0 at start 0. -/
theorem C10_occupation_write_in_bounds_witness :
    pickJob twoJobInstance [1, 1] [0, 0] true [0] [] [(0, true), (1, true)] =
      some (0, 0) ∧
    (([0] : List Int).getD (([0] : List Int).length - ([1, 1] : List Nat).getD 0 0) 0 ≤ 0 ∧
     ∃ machine, findFirstIdx (fun o => o ≤ (0 : Int)) [0] = some machine ∧
       machine ≤ twoJobInstance.processor_count - ([1, 1] : List Nat).getD 0 0 ∧
       machine + ([1, 1] : List Nat).getD 0 0 ≤ twoJobInstance.processor_count ∧
       ∀ done, updateOccupation [0] 0 (([1, 1] : List Nat).getD 0 0) done =
         some (writeBlock [0] machine (([1, 1] : List Nat).getD 0 0) done)) :=
  ⟨by decide,
    C10_occupation_write_in_bounds twoJobInstance [1, 1] [0, 0] true [0] []
      [(0, true), (1, true)] 0 0 (by decide) (by decide) (by decide) (by decide)⟩

/-- Flipping the arguments of `compare` negates the answer (for distinct
indices; the first constraint mentioning the pair decides both calls). -/
theorem compareIdx_flip {a b : Nat} (hab : a ≠ b) :
    ∀ cons : List Constraint, compareIdx cons b a = (compareIdx cons a b).map not
  | [] => rfl
  | c :: rest => by
    rw [compareIdx, compareIdx, List.findSome?_cons, List.findSome?_cons]
    by_cases h1 : a = c.1 ∧ b = c.2
    · have h2 : ¬ (b = c.1 ∧ a = c.2) := by
        rintro ⟨hb1, ha2⟩
        exact hab (by rw [h1.1, hb1])
      rw [if_neg h2, if_pos h1, if_pos h1]
      rfl
    · by_cases h2 : b = c.1 ∧ a = c.2
      · rw [if_pos h2, if_neg h1, if_pos h2]
        rfl
      · rw [if_neg h2, if_neg h1, if_neg h1, if_neg h2]
        exact compareIdx_flip hab rest

/-- A `Chain'` can be transported along an implication that only needs to
hold for members of the list. -/
theorem chain'_imp_of_mem {r s : Nat → Nat → Prop} :
    ∀ {l : List Nat}, (∀ a ∈ l, ∀ b ∈ l, r a b → s a b) →
      List.Chain' r l → List.Chain' s l
  | [], _, _ => List.chain'_nil
  | [_], _, _ => List.chain'_singleton _
  | x :: y :: t, himp, hch => by
    rw [List.chain'_cons] at hch ⊢
    refine ⟨himp x (List.mem_cons_self _ _) y
      (List.mem_cons_of_mem _ (List.mem_cons_self _ _)) hch.1, ?_⟩
    exact chain'_imp_of_mem
      (fun a ha b hb hr => himp a (List.mem_cons_of_mem _ ha) b
        (List.mem_cons_of_mem _ hb) hr) hch.2

/-- Each part of a duplicate-free flattening is itself duplicate-free. -/
theorem nodup_of_flatten_nodup :
    ∀ {cs : List (List Nat)}, cs.flatten.Nodup → ∀ c ∈ cs, c.Nodup
  | [], _, c, hc => absurd hc (List.not_mem_nil c)
  | c0 :: rest, h, c, hc => by
    rw [List.flatten_cons] at h
    rcases List.mem_cons.mp hc with rfl | hc
    · exact h.of_append_left
    · exact nodup_of_flatten_nodup h.of_append_right c hc

/-- The first-fit insertion adds exactly the new index to the flattening. -/
theorem insertChainJob_flatten (I : ProblemInstance) (job : Job) (jidx : Nat) :
    ∀ chains : List (List Nat),
      (insertChainJob I job jidx chains).flatten.Perm (jidx :: chains.flatten)
  | [] => by simp [insertChainJob]
  | chain :: rest => by
    rw [insertChainJob]
    by_cases hcond : chain.all fun i =>
        is_comparable I.constraints (I.jobs.getD i default).index job.index
    · rw [if_pos hcond]
      rw [List.flatten_cons, List.flatten_cons, List.append_assoc]
      exact List.perm_middle
    · rw [if_neg hcond]
      rw [List.flatten_cons, List.flatten_cons]
      refine List.Perm.trans
        ((insertChainJob_flatten I job jidx rest).append_left chain) ?_
      exact List.perm_middle

/-- Comparability is symmetric (for distinct indices). -/
theorem is_comparable_symm {a b : Nat} (hab : a ≠ b) (cons : List Constraint) :
    is_comparable cons b a = is_comparable cons a b := by
  rw [is_comparable, is_comparable, compareIdx_flip hab, Option.isSome_map']

/-- First-fit insertion preserves the chain invariants: all members in
range, and all pairs of distinct members directly comparable. -/
theorem insertChainJob_inv (I : ProblemInstance) (job : Job) (jidx : Nat)
    (hjob : job = I.jobs.getD jidx default) (hjn : jidx < I.jobs.length)
    (hidx : ∀ k, k < I.jobs.length → (I.jobs.getD k default).index = k) :
    ∀ chains : List (List Nat),
      (∀ chain ∈ chains, ∀ a ∈ chain, a < I.jobs.length) →
      (∀ chain ∈ chains, ∀ a ∈ chain, ∀ b ∈ chain, a ≠ b →
        is_comparable I.constraints a b = true) →
      (∀ chain ∈ insertChainJob I job jidx chains, ∀ a ∈ chain,
        a < I.jobs.length) ∧
      (∀ chain ∈ insertChainJob I job jidx chains, ∀ a ∈ chain, ∀ b ∈ chain,
        a ≠ b → is_comparable I.constraints a b = true)
  | [] => by
    intro _ _
    constructor
    · intro chain hc a ha
      rw [insertChainJob, List.mem_singleton] at hc
      subst hc
      rw [List.mem_singleton] at ha
      subst ha
      exact hjn
    · intro chain hc a ha b hb hab
      rw [insertChainJob, List.mem_singleton] at hc
      subst hc
      rw [List.mem_singleton] at ha hb
      subst ha
      subst hb
      exact absurd rfl hab
  | chain0 :: rest => by
    intro hlt hpair
    rw [insertChainJob]
    by_cases hcond : chain0.all fun i =>
        is_comparable I.constraints (I.jobs.getD i default).index job.index
    · rw [if_pos hcond]
      have hjobidx : job.index = jidx := by
        rw [hjob]
        exact hidx jidx hjn
      have hcompat : ∀ a ∈ chain0, is_comparable I.constraints a jidx = true := by
        intro a ha
        have := List.all_eq_true.mp hcond a ha
        rw [hidx a (hlt chain0 (List.mem_cons_self _ _) a ha), hjobidx] at this
        exact this
      constructor
      · intro chain hc a ha
        rcases List.mem_cons.mp hc with rfl | hc
        · rcases List.mem_append.mp ha with ha | ha
          · exact hlt chain0 (List.mem_cons_self _ _) a ha
          · rw [List.mem_singleton] at ha
            subst ha
            exact hjn
        · exact hlt _ (List.mem_cons_of_mem _ hc) a ha
      · intro chain hc a ha b hb hab
        rcases List.mem_cons.mp hc with rfl | hc
        · rcases List.mem_append.mp ha with ha | ha <;>
            rcases List.mem_append.mp hb with hb | hb
          · exact hpair chain0 (List.mem_cons_self _ _) a ha b hb hab
          · rw [List.mem_singleton] at hb
            rw [hb]
            exact hcompat a ha
          · rw [List.mem_singleton] at ha
            have hjb : jidx ≠ b := by
              rw [← ha]
              exact hab
            rw [ha, ← is_comparable_symm hjb I.constraints]
            exact hcompat b hb
          · rw [List.mem_singleton] at ha hb
            exact absurd (ha.trans hb.symm) hab
        · exact hpair _ (List.mem_cons_of_mem _ hc) a ha b hb hab
    · rw [if_neg hcond]
      obtain ⟨hlt', hpair'⟩ := insertChainJob_inv I job jidx hjob hjn hidx rest
        (fun c hc => hlt c (List.mem_cons_of_mem _ hc))
        (fun c hc => hpair c (List.mem_cons_of_mem _ hc))
      constructor
      · intro chain hc a ha
        rcases List.mem_cons.mp hc with rfl | hc
        · exact hlt chain (List.mem_cons_self _ _) a ha
        · exact hlt' _ hc a ha
      · intro chain hc a ha b hb hab
        rcases List.mem_cons.mp hc with rfl | hc
        · exact hpair chain (List.mem_cons_self _ _) a ha b hb hab
        · exact hpair' _ hc a ha b hb hab

/-- The greedy fold of the chain decomposition: the flattening collects
exactly the processed indices, and both chain invariants hold throughout. -/
theorem buildChains_fold (I : ProblemInstance)
    (hidx : ∀ k, k < I.jobs.length → (I.jobs.getD k default).index = k) :
    ∀ (L : List (Nat × Job)) (chains : List (List Nat)),
      (∀ p ∈ L, p.2 = I.jobs.getD p.1 default ∧ p.1 < I.jobs.length) →
      (∀ chain ∈ chains, ∀ a ∈ chain, a < I.jobs.length) →
      (∀ chain ∈ chains, ∀ a ∈ chain, ∀ b ∈ chain, a ≠ b →
        is_comparable I.constraints a b = true) →
      (L.foldl (fun cs p => insertChainJob I p.2 p.1 cs) chains).flatten.Perm
          (chains.flatten ++ L.map Prod.fst) ∧
      (∀ chain ∈ L.foldl (fun cs p => insertChainJob I p.2 p.1 cs) chains,
        ∀ a ∈ chain, a < I.jobs.length) ∧
      (∀ chain ∈ L.foldl (fun cs p => insertChainJob I p.2 p.1 cs) chains,
        ∀ a ∈ chain, ∀ b ∈ chain, a ≠ b → is_comparable I.constraints a b = true)
  | [], chains => by
    intro _ hlt hpair
    refine ⟨?_, hlt, hpair⟩
    rw [List.map_nil, List.append_nil]
    exact List.Perm.refl _
  | p :: rest, chains => by
    intro hL hlt hpair
    obtain ⟨hp2, hp1⟩ := hL p (List.mem_cons_self _ _)
    obtain ⟨hlt', hpair'⟩ := insertChainJob_inv I p.2 p.1 hp2 hp1 hidx chains hlt hpair
    obtain ⟨hPerm, hltR, hpairR⟩ := buildChains_fold I hidx rest
      (insertChainJob I p.2 p.1 chains)
      (fun q hq => hL q (List.mem_cons_of_mem _ hq)) hlt' hpair'
    refine ⟨?_, hltR, hpairR⟩
    rw [List.foldl_cons]
    refine hPerm.trans ?_
    refine List.Perm.trans
      (((insertChainJob_flatten I p.2 p.1 chains).append_right (rest.map Prod.fst))) ?_
    rw [List.map_cons]
    exact List.perm_middle.symm

/-- Ordered insertion into a sorted chain: succeeds whenever the new element
is comparable with every member, returns a sorted permutation, and its head
is the new element or the old head. -/
theorem orderedInsertChain_spec (I : ProblemInstance) (x : Nat) :
    ∀ l : List Nat,
      (∀ y ∈ l, (jobCompare I x y).isSome = true) →
      (∀ y ∈ l, jobCompare I y x = (jobCompare I x y).map not) →
      List.Chain' (fun a b => jobCompare I a b = some true) l →
      ∃ res, orderedInsertChain I x l = some res ∧ res.Perm (x :: l) ∧
        List.Chain' (fun a b => jobCompare I a b = some true) res ∧
        ∀ z, res.head? = some z → z = x ∨ l.head? = some z
  | [] => by
    intro _ _ _
    refine ⟨[x], rfl, List.Perm.refl _, List.chain'_singleton x, ?_⟩
    intro z hz
    left
    exact (Option.some.inj hz).symm
  | y :: ys => by
    intro hcomp hflip hsorted
    cases hc : jobCompare I x y with
    | none =>
      exfalso
      have := hcomp y (List.mem_cons_self _ _)
      rw [hc] at this
      exact absurd this (by simp)
    | some b =>
      cases b with
      | true =>
        refine ⟨x :: y :: ys, ?_, List.Perm.refl _, ?_, ?_⟩
        · rw [orderedInsertChain, hc]
        · rw [List.chain'_cons]
          exact ⟨hc, hsorted⟩
        · intro z hz
          left
          exact (Option.some.inj hz).symm
      | false =>
        obtain ⟨res, heq, hperm, hchain, hhead⟩ := orderedInsertChain_spec I x ys
          (fun z hz => hcomp z (List.mem_cons_of_mem _ hz))
          (fun z hz => hflip z (List.mem_cons_of_mem _ hz))
          hsorted.tail
        refine ⟨y :: res, ?_, ?_, ?_, ?_⟩
        · rw [orderedInsertChain, hc, heq]
          rfl
        · refine List.Perm.trans (hperm.cons y) (List.Perm.swap x y ys)
        · rw [List.chain'_cons']
          refine ⟨?_, hchain⟩
          intro z hz
          rcases hhead z hz with rfl | hz'
          · have hfy := hflip y (List.mem_cons_self _ _)
            rw [hc] at hfy
            exact hfy
          · have := (List.chain'_cons'.mp hsorted).1
            exact this z hz'
        · intro z hz
          right
          rw [List.head?_cons] at hz ⊢
          exact hz

/-- The per-chain insertion sort: on a duplicate-free chain whose members
are pairwise comparable under the job comparator (with the flip law), the
sort succeeds and returns a sorted permutation of the chain. -/
theorem sortChain_spec (I : ProblemInstance) :
    ∀ l : List Nat,
      (∀ a ∈ l, ∀ b ∈ l, a ≠ b → (jobCompare I a b).isSome = true) →
      (∀ a ∈ l, ∀ b ∈ l, a ≠ b → jobCompare I b a = (jobCompare I a b).map not) →
      l.Nodup →
      ∃ res, sortChain I l = some res ∧ res.Perm l ∧
        List.Chain' (fun a b => jobCompare I a b = some true) res
  | [] => by
    intro _ _ _
    exact ⟨[], rfl, List.Perm.refl _, List.chain'_nil⟩
  | x :: xs => by
    intro hcomp hflip hnd
    have hxnot : x ∉ xs := (List.nodup_cons.mp hnd).1
    obtain ⟨xs', heq, hperm, hchain⟩ := sortChain_spec I xs
      (fun a ha b hb hab => hcomp a (List.mem_cons_of_mem _ ha)
        b (List.mem_cons_of_mem _ hb) hab)
      (fun a ha b hb hab => hflip a (List.mem_cons_of_mem _ ha)
        b (List.mem_cons_of_mem _ hb) hab)
      (List.nodup_cons.mp hnd).2
    have hxne : ∀ y ∈ xs', x ≠ y := by
      intro y hy hxy
      apply hxnot
      rw [hxy]
      exact hperm.mem_iff.mp hy
    obtain ⟨res, hins, hpermres, hchainres, _⟩ := orderedInsertChain_spec I x xs'
      (fun y hy => hcomp x (List.mem_cons_self _ _) y
        (List.mem_cons_of_mem _ (hperm.mem_iff.mp hy)) (hxne y hy))
      (fun y hy => hflip x (List.mem_cons_self _ _) y
        (List.mem_cons_of_mem _ (hperm.mem_iff.mp hy)) (hxne y hy))
      hchain
    refine ⟨res, ?_, ?_, hchainres⟩
    · rw [sortChain, heq]
      exact hins
    · exact hpermres.trans (hperm.cons x)

/-- Option-monad `mapM` of the sort over all chains: when every chain sorts
successfully, the whole map succeeds, componentwise related. -/
theorem mapM_sortChain_spec (I : ProblemInstance) :
    ∀ cs : List (List Nat),
      (∀ c ∈ cs, ∃ c', sortChain I c = some c' ∧ c'.Perm c ∧
        List.Chain' (fun a b => jobCompare I a b = some true) c') →
      ∃ res, cs.mapM (sortChain I) = some res ∧
        List.Forall₂ (fun c c' => c'.Perm c ∧
          List.Chain' (fun a b => jobCompare I a b = some true) c') cs res
  | [] => by
    intro _
    exact ⟨[], rfl, List.Forall₂.nil⟩
  | c :: cs => by
    intro h
    obtain ⟨c', hc', hcp, hcs⟩ := h c (List.mem_cons_self _ _)
    obtain ⟨res, hres, hrel⟩ := mapM_sortChain_spec I cs
      (fun d hd => h d (List.mem_cons_of_mem _ hd))
    refine ⟨c' :: res, ?_, List.Forall₂.cons ⟨hcp, hcs⟩ hrel⟩
    rw [List.mapM_cons, hc', hres]
    rfl

/-- Componentwise permutations flatten to a permutation. -/
theorem forall₂_perm_flatten {r : List Nat → List Nat → Prop} :
    ∀ {cs res : List (List Nat)},
      List.Forall₂ (fun c c' => c'.Perm c ∧ r c c') cs res →
      res.flatten.Perm cs.flatten
  | _, _, List.Forall₂.nil => List.Perm.refl _
  | _, _, List.Forall₂.cons h hrest => by
    rw [List.flatten_cons, List.flatten_cons]
    exact h.1.append (forall₂_perm_flatten hrest)

/-- Each right-hand member of a `Forall₂` is related to some left member. -/
theorem forall₂_mem_right {r : List Nat → List Nat → Prop} :
    ∀ {cs res : List (List Nat)}, List.Forall₂ r cs res →
      ∀ c' ∈ res, ∃ c ∈ cs, r c c'
  | _, _, List.Forall₂.nil => by
    intro c' hc'
    exact absurd hc' (List.not_mem_nil c')
  | _, _, List.Forall₂.cons h hrest => by
    intro c' hc'
    rcases List.mem_cons.mp hc' with rfl | hc'
    · exact ⟨_, List.mem_cons_self _ _, h⟩
    · obtain ⟨c, hc, hr⟩ := forall₂_mem_right hrest c' hc'
      exact ⟨c, List.mem_cons_of_mem _ hc, hr⟩

/-- In an acyclic constraint list, direct precedence is transitive on
comparable elements: `a ≺ b` and `b ≺ c` force `a ≺ c`, since any other
answer closes a cycle. -/
theorem less_than_trans_of_acyclic {I : ProblemInstance}
    (hacyc : ∀ a, ¬ Relation.TransGen
      (fun u v => ((u, v) : Constraint) ∈ I.constraints) a a)
    {a b c : Nat}
    (hcompac : a ≠ c → is_comparable I.constraints a c = true)
    (h1 : less_than I.constraints a b = true)
    (h2 : less_than I.constraints b c = true) :
    less_than I.constraints a c = true := by
  have hab := less_than_mem h1
  have hbc := less_than_mem h2
  by_cases hac : a = c
  · exfalso
    subst hac
    exact hacyc a ((Relation.TransGen.single hab).trans
      (Relation.TransGen.single hbc))
  · have hcomp := hcompac hac
    rw [is_comparable] at hcomp
    rw [less_than, beq_iff_eq]
    cases hcase : compareIdx I.constraints a c with
    | none =>
      rw [hcase] at hcomp
      exact absurd hcomp (by simp)
    | some v =>
      cases v with
      | true => rfl
      | false =>
        exfalso
        have hflip := compareIdx_flip hac I.constraints
        have hca : less_than I.constraints c a = true := by
          rw [less_than, beq_iff_eq, hflip, hcase]
          rfl
        have hmem := less_than_mem hca
        exact hacyc a ((Relation.TransGen.single hab).trans
          ((Relation.TransGen.single hbc).trans (Relation.TransGen.single hmem)))

/-- From a `Chain'` and transitivity on the members, the head is related to
every later element. -/
theorem rel_head_all {r : Nat → Nat → Prop} :
    ∀ (t : List Nat) (x : Nat),
      (∀ a ∈ x :: t, ∀ b ∈ x :: t, ∀ c ∈ x :: t, r a b → r b c → r a c) →
      (∀ h ∈ t.head?, r x h) → List.Chain' r t → ∀ y ∈ t, r x y
  | [], x => by
    intro _ _ _ y hy
    exact absurd hy (List.not_mem_nil y)
  | z :: t', x => by
    intro htrans hhead hch y hy
    have hxz : r x z := hhead z rfl
    rcases List.mem_cons.mp hy with rfl | hy'
    · exact hxz
    · rw [List.chain'_cons'] at hch
      have hzy : r z y := rel_head_all t' z
        (fun a ha b hb c hc => htrans a (List.mem_cons_of_mem _ ha)
          b (List.mem_cons_of_mem _ hb) c (List.mem_cons_of_mem _ hc))
        hch.1 hch.2 y hy'
      exact htrans x (List.mem_cons_self _ _)
        z (List.mem_cons_of_mem _ (List.mem_cons_self _ _))
        y (List.mem_cons_of_mem _ (List.mem_cons_of_mem _ hy'))
        hxz hzy

/-- A `Chain'` upgrades to a `Pairwise` given transitivity on the members. -/
theorem chain'_to_pairwise {r : Nat → Nat → Prop} :
    ∀ {l : List Nat},
      (∀ a ∈ l, ∀ b ∈ l, ∀ c ∈ l, r a b → r b c → r a c) →
      List.Chain' r l → List.Pairwise r l
  | [] => by
    intro _ _
    exact List.Pairwise.nil
  | x :: t => by
    intro htrans hch
    rw [List.chain'_cons'] at hch
    refine List.Pairwise.cons ?_ (chain'_to_pairwise
      (fun a ha b hb c hc => htrans a (List.mem_cons_of_mem _ ha)
        b (List.mem_cons_of_mem _ hb) c (List.mem_cons_of_mem _ hc)) hch.2)
    exact rel_head_all t x htrans hch.1 hch.2

/-- C8: for every instance with acyclic constraints and position-consistent
indices, the greedy first-fit decomposition followed by the per-chain sort
succeeds (the panicking comparator is never invoked on an incomparable
pair), every job index appears in exactly one chain, every pair of distinct
jobs within a chain is directly comparable under the raw constraint list,
and each chain is sorted ascending by `less_than`. -/
theorem C8_chain_decomposition (I : ProblemInstance)
    (hacyc : ∀ a, ¬ Relation.TransGen
      (fun u v => ((u, v) : Constraint) ∈ I.constraints) a a)
    (hidx : ∀ k, k < I.jobs.length → (I.jobs.getD k default).index = k) :
    ∃ chains, preprocess I = some chains ∧
      chains.flatten.Perm (List.range I.jobs.length) ∧
      (∀ chain ∈ chains, ∀ a ∈ chain, ∀ b ∈ chain, a ≠ b →
        is_comparable I.constraints a b = true) ∧
      (∀ chain ∈ chains,
        List.Pairwise (fun a b => less_than I.constraints a b = true) chain) := by
  have henum : ∀ p ∈ I.jobs.enum, p.2 = I.jobs.getD p.1 default ∧
      p.1 < I.jobs.length := by
    intro p hp
    rw [List.mem_enum_iff_getElem?] at hp
    have hp1 : p.1 < I.jobs.length := by
      by_contra hge
      rw [List.getElem?_eq_none (Nat.le_of_not_lt hge)] at hp
      exact Option.noConfusion hp
    refine ⟨?_, hp1⟩
    rw [List.getD_eq_getElem?_getD, hp]
    rfl
  obtain ⟨hPerm0, hlt0, hpair0⟩ := buildChains_fold I hidx I.jobs.enum [] henum
    (by intro c hc; exact absurd hc (List.not_mem_nil c))
    (by intro c hc; exact absurd hc (List.not_mem_nil c))
  have hPerm1 : (buildChains I).flatten.Perm (List.range I.jobs.length) := by
    rw [buildChains]
    refine hPerm0.trans ?_
    rw [List.flatten_nil, List.nil_append, List.enum_map_fst]
  have hndflat : (buildChains I).flatten.Nodup :=
    hPerm1.nodup_iff.mpr (List.nodup_range _)
  have hlt1 : ∀ chain ∈ buildChains I, ∀ a ∈ chain, a < I.jobs.length := hlt0
  have hpair1 : ∀ chain ∈ buildChains I, ∀ a ∈ chain, ∀ b ∈ chain, a ≠ b →
      is_comparable I.constraints a b = true := hpair0
  have hsortall : ∀ c ∈ buildChains I, ∃ c', sortChain I c = some c' ∧
      c'.Perm c ∧ List.Chain' (fun a b => jobCompare I a b = some true) c' := by
    intro c hc
    have hcb : ∀ a ∈ c, a < I.jobs.length := by
      intro a ha
      exact hlt1 c hc a ha
    have htr : ∀ a ∈ c, ∀ b ∈ c, jobCompare I a b =
        compareIdx I.constraints a b := by
      intro a ha b hb
      rw [jobCompare, hidx a (hcb a ha), hidx b (hcb b hb)]
    apply sortChain_spec
    · intro a ha b hb hab
      rw [htr a ha b hb]
      have := hpair1 c hc a ha b hb hab
      rw [is_comparable] at this
      exact this
    · intro a ha b hb hab
      rw [htr a ha b hb, htr b hb a ha]
      exact compareIdx_flip hab I.constraints
    · exact nodup_of_flatten_nodup hndflat c hc
  obtain ⟨res, hres, hrel⟩ := mapM_sortChain_spec I (buildChains I) hsortall
  refine ⟨res, ?_, ?_, ?_, ?_⟩
  · rw [preprocess, hres]
  · exact (forall₂_perm_flatten hrel).trans hPerm1
  · intro chain hc a ha b hb hab
    obtain ⟨c, hcmem, hcp, _⟩ := forall₂_mem_right hrel chain hc
    exact hpair1 c hcmem a (hcp.mem_iff.mp ha) b (hcp.mem_iff.mp hb) hab
  · intro chain hc
    obtain ⟨c, hcmem, hcp, hchain⟩ := forall₂_mem_right hrel chain hc
    have hchainlt : List.Chain'
        (fun a b => less_than I.constraints a b = true) chain := by
      refine chain'_imp_of_mem ?_ hchain
      intro a ha b hb hr
      have han : a < I.jobs.length := hlt1 c hcmem a (hcp.mem_iff.mp ha)
      have hbn : b < I.jobs.length := hlt1 c hcmem b (hcp.mem_iff.mp hb)
      rw [less_than, beq_iff_eq]
      rw [jobCompare, hidx a han, hidx b hbn] at hr
      exact hr
    refine chain'_to_pairwise ?_ hchainlt
    intro a ha b hb d hd h1 h2
    refine less_than_trans_of_acyclic hacyc ?_ h1 h2
    intro had
    exact hpair1 c hcmem a (hcp.mem_iff.mp ha) d (hcp.mem_iff.mp hd) had


/-- The single constraint list `[(0, 1)]` is acyclic. -/
theorem single_constraint_acyclic :
    ∀ a, ¬ Relation.TransGen
      (fun u v => ((u, v) : Constraint) ∈ [((0 : Nat), (1 : Nat))]) a a := by
  have hstep : ∀ a b, Relation.TransGen
      (fun u v => ((u, v) : Constraint) ∈ [((0 : Nat), (1 : Nat))]) a b →
      a = 0 ∧ b = 1 := by
    intro a b h
    induction h with
    | single hmem =>
      rw [List.mem_singleton, Prod.mk.injEq] at hmem
      exact hmem
    | tail hprev hmem ih =>
      rw [List.mem_singleton, Prod.mk.injEq] at hmem
      exact ⟨ih.1, hmem.2⟩
  intro a h
  obtain ⟨h0, h1⟩ := hstep a a h
  rw [h0] at h1
  exact absurd h1 (by decide)

/-- Witness for C8 at the two-job chain instance `0 ≺ 1`. -/
theorem C8_chain_decomposition_witness :
    ∃ chains, preprocess chainedPairInstance = some chains ∧
      chains.flatten.Perm (List.range chainedPairInstance.jobs.length) ∧
      (∀ chain ∈ chains, ∀ a ∈ chain, ∀ b ∈ chain, a ≠ b →
        is_comparable chainedPairInstance.constraints a b = true) ∧
      (∀ chain ∈ chains, List.Pairwise
        (fun a b => less_than chainedPairInstance.constraints a b = true) chain) :=
  C8_chain_decomposition chainedPairInstance single_constraint_acyclic (by decide)

